import Mathlib

/-!
Shallow embedding of the foamcutter path-processing pipeline
(`helpers.py`, `pathsunion.py`, `toolpaths.py`, `gcode.py`).

Points are modelled as pairs of rationals (the source uses floating-point
pairs; we use exact arithmetic).  The source compares Euclidean distances
(square roots) against thresholds; to keep the embedding executable we
provide the Boolean comparison `distGT p q c` together with the proved
bridge lemma `distGT_iff_distR` showing it is equivalent to the source's
`distance(p, q) > c` over the reals, for every rational threshold `c`
(including negative ones).
-/

namespace FoamCutter

/-- A 2D point (millimeters), `helpers.py` style: a pair of coordinates. -/
abbrev Pt : Type := ℚ × ℚ

/-- `helpers.squared_length`: `vector[0]**2 + vector[1]**2`. -/
def squared_length (v : Pt) : ℚ := v.1 ^ 2 + v.2 ^ 2

/-- `helpers.length`: `sqrt(squared_length(vector))`, valued in `ℝ`. -/
noncomputable def vec_length (v : Pt) : ℝ := Real.sqrt (squared_length v)

/-- `helpers.squared_distance`: squared length of `point1 - point2`. -/
def squared_distance (p1 p2 : Pt) : ℚ := squared_length (p1.1 - p2.1, p1.2 - p2.2)

/-- `helpers.distance`: Euclidean distance, valued in `ℝ`. -/
noncomputable def distR (p1 p2 : Pt) : ℝ := Real.sqrt (squared_distance p1 p2)

/-- Executable form of the source's comparison `distance(p1, p2) > c`:
for `c < 0` it always holds (distances are nonnegative), otherwise it is
equivalent to comparing squared values.  `distGT_iff_distR` proves the
equivalence with the source's real-valued comparison. -/
def distGT (p1 p2 : Pt) (c : ℚ) : Bool := decide (c < 0) || decide (c ^ 2 < squared_distance p1 p2)

lemma squared_length_nonneg (v : Pt) : 0 ≤ squared_length v := by
  have h1 : 0 ≤ v.1 ^ 2 := sq_nonneg _
  have h2 : 0 ≤ v.2 ^ 2 := sq_nonneg _
  simpa [squared_length] using add_nonneg h1 h2

lemma squared_distance_nonneg (p1 p2 : Pt) : 0 ≤ squared_distance p1 p2 :=
  squared_length_nonneg _

lemma distR_nonneg (p1 p2 : Pt) : 0 ≤ distR p1 p2 := Real.sqrt_nonneg _

lemma squared_distance_comm (p q : Pt) : squared_distance p q = squared_distance q p := by
  unfold squared_distance squared_length
  ring

lemma distR_comm (p q : Pt) : distR p q = distR q p := by
  unfold distR
  rw [squared_distance_comm]

lemma distR_self (p : Pt) : distR p p = 0 := by
  have h0 : squared_distance p p = 0 := by
    simp [squared_distance, squared_length]
  unfold distR
  rw [h0]
  simp

/-- The executable comparison agrees with the source's `distance(p1,p2) > c`. -/
lemma distGT_iff_distR (p1 p2 : Pt) (c : ℚ) : distGT p1 p2 c = true ↔ (c : ℝ) < distR p1 p2 := by
  unfold distGT
  rcases lt_or_le c 0 with hc | hc
  · constructor
    · intro _
      have hcc : (c : ℝ) < 0 := by exact_mod_cast hc
      exact hcc.trans_le (distR_nonneg p1 p2)
    · intro _
      simp [hc]
  · have hc' : (0 : ℝ) ≤ (c : ℝ) := by exact_mod_cast hc
    have hiff : (c : ℝ) < distR p1 p2 ↔ (c : ℝ) ^ 2 < ((squared_distance p1 p2 : ℚ) : ℝ) := by
      unfold distR
      exact Real.lt_sqrt hc'
    rw [hiff, Bool.or_eq_true, decide_eq_true_iff, decide_eq_true_iff]
    constructor
    · rintro (h | h)
      · exact absurd h (not_lt.mpr hc)
      · exact_mod_cast h
    · intro h
      right
      exact_mod_cast h

/-- Negated form: `¬ distGT` means the real distance is `≤ c`. -/
lemma distGT_eq_false_iff (p1 p2 : Pt) (c : ℚ) :
    distGT p1 p2 c = false ↔ distR p1 p2 ≤ (c : ℝ) := by
  rw [← not_lt, ← distGT_iff_distR, Bool.eq_false_iff]

/-! ## Simplifier (`toolpaths.EngravingToolPathsGenerator.generate_simplified_path`)

The source walks `path[1:]` with a `prev_point` candidate (initially
`path[0]`); whenever the next point is farther than `min_distance` from the
candidate it appends the candidate to the output and promotes the point to
new candidate; after the loop it appends the final candidate. -/

/-- Loop of `generate_simplified_path`: `prev` is the current candidate. -/
def simplify_go (min_distance : ℚ) (prev : Pt) : List Pt → List Pt
  | [] => [prev]
  | point :: tail =>
    if distGT point prev min_distance then prev :: simplify_go min_distance point tail
    else simplify_go min_distance prev tail

/-- `generate_simplified_path(path)`: returns `[]` on the empty path,
otherwise runs the candidate loop starting from `path[0]`. -/
def generate_simplified_path (path : List Pt) (min_distance : ℚ) : List Pt :=
  match path with
  | [] => []
  | p0 :: rest => simplify_go min_distance p0 rest

lemma simplify_go_ne_nil (md : ℚ) (prev : Pt) (l : List Pt) : simplify_go md prev l ≠ [] := by
  induction l generalizing prev with
  | nil => simp [simplify_go]
  | cons p t ih =>
    by_cases h : distGT p prev md
    · simp [simplify_go, h]
    · simpa [simplify_go, h] using ih prev

lemma simplify_go_head (md : ℚ) (prev : Pt) (l : List Pt) :
    (simplify_go md prev l).headI = prev := by
  induction l generalizing prev with
  | nil => simp [simplify_go]
  | cons p t ih =>
    by_cases h : distGT p prev md
    · simp [simplify_go, h]
    · simpa [simplify_go, h] using ih prev

lemma getLastI_cons_of_ne_nil {α : Type} [Inhabited α] (a : α) {l : List α} (h : l ≠ []) :
    (a :: l).getLastI = l.getLastI := by
  cases l with
  | nil => exact absurd rfl h
  | cons b t =>
    rw [List.getLastI_eq_getLast?, List.getLastI_eq_getLast?, List.getLast?_cons_cons]

lemma simplify_go_sublist (md : ℚ) (prev : Pt) (l : List Pt) :
    (simplify_go md prev l).Sublist (prev :: l) := by
  induction l generalizing prev with
  | nil => simp [simplify_go]
  | cons p t ih =>
    by_cases h : distGT p prev md
    · rw [simplify_go, if_pos h]
      exact List.Sublist.cons₂ prev (ih p)
    · rw [simplify_go, if_neg h]
      exact (ih prev).trans (List.Sublist.cons₂ prev (List.sublist_cons_self p t))

lemma simplify_go_chain (md : ℚ) (prev : Pt) (l : List Pt) :
    (simplify_go md prev l).Chain' (fun a b => distGT b a md = true) := by
  induction l generalizing prev with
  | nil => simp [simplify_go]
  | cons p t ih =>
    by_cases h : distGT p prev md
    · rw [simplify_go, if_pos h]
      cases hmatch : simplify_go md p t with
      | nil => exact absurd hmatch (simplify_go_ne_nil md p t)
      | cons q rest =>
        have hq : q = p := by
          have hh := simplify_go_head md p t
          rw [hmatch] at hh
          simpa using hh
        rw [List.chain'_cons]
        exact ⟨by rw [hq]; exact h, hmatch ▸ ih p⟩
    · rw [simplify_go, if_neg h]
      exact ih prev

lemma simplify_go_last (md : ℚ) (hmd : 0 ≤ md) (prev : Pt) (l : List Pt) :
    distR ((simplify_go md prev l).getLastI) ((prev :: l).getLastI) ≤ (md : ℝ) := by
  induction l generalizing prev with
  | nil =>
    simp only [simplify_go, List.getLastI]
    rw [distR_self]
    exact_mod_cast hmd
  | cons p t ih =>
    by_cases h : distGT p prev md
    · rw [simplify_go, if_pos h, getLastI_cons_of_ne_nil prev (simplify_go_ne_nil md p t),
        getLastI_cons_of_ne_nil prev (List.cons_ne_nil p t)]
      exact ih p
    · rw [simplify_go, if_neg h]
      cases t with
      | nil =>
        have hfalse : distGT p prev md = false := by simpa using h
        have hle := (distGT_eq_false_iff p prev md).mp hfalse
        simp only [simplify_go, List.getLastI]
        rw [distR_comm] at hle
        exact hle
      | cons q u =>
        have e1 : (prev :: p :: q :: u).getLastI = (q :: u).getLastI := by
          rw [getLastI_cons_of_ne_nil prev (List.cons_ne_nil p (q :: u)),
            getLastI_cons_of_ne_nil p (List.cons_ne_nil q u)]
        have e2 : (prev :: q :: u).getLastI = (q :: u).getLastI :=
          getLastI_cons_of_ne_nil prev (List.cons_ne_nil q u)
        rw [e1, ← e2]
        exact ih prev

/-! ## More geometry kernel operations (`helpers.py`) -/

/-- The error kinds of `errors.py` that the embedded core can raise. -/
inductive FoamError : Type
  | invalidCuttingPath
deriving DecidableEq, Repr

/-- `helpers.verify_path_closed(path, close_distance)`: raises
`InvalidCuttingPath` when `path and (len(path) > 1) and
(distance(path[0], path[-1]) > close_distance)`. -/
def verify_path_closed (path : List Pt) (close_distance : ℚ) : Except FoamError Unit :=
  match path with
  | [] => Except.ok ()
  | p :: rest =>
    if 1 < (p :: rest).length ∧ distGT p ((p :: rest).getLastI) close_distance = true then
      Except.error FoamError.invalidCuttingPath
    else Except.ok ()

/-- Loop of `helpers.point_path_squared_distance`: scans `rest` (the tail of
the path) with the running nearest squared distance and its index; updates
only on strict improvement (so the first occurrence wins ties). -/
def ppsd_go (point : Pt) (best_d : ℚ) (best_i : ℕ) (idx : ℕ) : List Pt → ℚ × ℕ
  | [] => (best_d, best_i)
  | p :: tail =>
    if squared_distance point p < best_d then ppsd_go point (squared_distance point p) idx (idx + 1) tail
    else ppsd_go point best_d best_i (idx + 1) tail

/-- `helpers.point_path_squared_distance(point, path)`: squared distance to
the nearest path point and its index.  The source requires a nonempty path
(it reads `path[0]`); on `[]` we return `(0, 0)` (never used). -/
def point_path_squared_distance (point : Pt) (path : List Pt) : ℚ × ℕ :=
  match path with
  | [] => (0, 0)
  | p0 :: rest => ppsd_go point (squared_distance point p0) 0 1 rest

/-- `helpers.rotate_closed_path(path, new_start)`: `[]` stays `[]`; a
`new_start` of `0` or at least `len(path) - 1` returns the path unchanged;
otherwise `path[new_start:] ++ path[1:new_start+1]`. -/
def rotate_closed_path (path : List Pt) (new_start : ℕ) : List Pt :=
  if path = [] then []
  else if new_start = 0 ∨ path.length - 1 ≤ new_start then path
  else path.drop new_start ++ (path.drop 1).take new_start

/-! ## Path union (`pathsunion.py`) -/

/-- Loop of `pathsunion.compute_paths_distance`: scans `path1[1:]` keeping the
best `(squared distance, index in path1, index in path2)`; strict improvement
only, so earliest `path1` index wins ties. -/
def cpd_go (path2 : List Pt) (best_d : ℚ) (best_i1 best_i2 : ℕ) (idx : ℕ) :
    List Pt → ℚ × ℕ × ℕ
  | [] => (best_d, best_i1, best_i2)
  | p :: tail =>
    if (point_path_squared_distance p path2).1 < best_d then
      cpd_go path2 (point_path_squared_distance p path2).1 idx
        (point_path_squared_distance p path2).2 (idx + 1) tail
    else cpd_go path2 best_d best_i1 best_i2 (idx + 1) tail

/-- `pathsunion.compute_paths_distance(path1, path2)`: the minimal squared
distance between points of the two paths together with the indices of the
nearest points.  The source requires nonempty paths (it reads `path1[0]`);
on an empty `path1` we return `(0, 0, 0)` (never used). -/
def compute_paths_distance (path1 path2 : List Pt) : ℚ × ℕ × ℕ :=
  match path1 with
  | [] => (0, 0, 0)
  | p0 :: rest =>
    let r0 := point_path_squared_distance p0 path2
    cpd_go path2 r0.1 0 r0.2 1 rest

/-- Loop of `pathsunion.PathsJoiner.extract_nearest_path`: scans the pending
pool keeping the best `(distance, pool index, index in working path, index in
candidate)`; strict improvement only, so the earliest pool index wins ties. -/
def extract_go (working : List Pt) (best_d : ℚ) (best_j best_i1 best_i2 : ℕ) (jdx : ℕ) :
    List (List Pt) → ℚ × ℕ × ℕ × ℕ
  | [] => (best_d, best_j, best_i1, best_i2)
  | p :: tail =>
    if (compute_paths_distance working p).1 < best_d then
      extract_go working (compute_paths_distance working p).1 jdx
        (compute_paths_distance working p).2.1 (compute_paths_distance working p).2.2
        (jdx + 1) tail
    else extract_go working best_d best_j best_i1 best_i2 (jdx + 1) tail

/-- `pathsunion.PathsJoiner.extract_nearest_path`: returns `none` when the
pool is empty, otherwise the nearest pending path, the indices of the nearest
point pair, and the pool with that path removed (`pop(path_index)`). -/
def extract_nearest_path (working : List Pt) (remaining : List (List Pt)) :
    Option (List Pt × ℕ × ℕ × List (List Pt)) :=
  match remaining with
  | [] => none
  | r0 :: rest =>
    let r := compute_paths_distance working r0
    let b := extract_go working r.1 0 r.2.1 r.2.2 1 rest
    some ((r0 :: rest).getD b.2.1 [], b.2.2.1, b.2.2.2, (r0 :: rest).eraseIdx b.2.1)

/-- `pathsunion.PathsJoiner.join_two_paths`: rotates the candidate to start
at its nearest point and splices it in right after the working path's nearest
point: `path[:idx+1] ++ rotated ++ path[idx:]`. -/
def join_two_paths (path path_to_add : List Pt) (index_path index_path_to_add : ℕ) : List Pt :=
  path.take (index_path + 1) ++ rotate_closed_path path_to_add index_path_to_add ++
    path.drop index_path

/-- Loop of `pathsunion.PathsJoiner.unite`: repeatedly extract the nearest
pending path and splice it in.  Each iteration removes exactly one pool entry,
so the fuel is the pool size. -/
def unite_go : ℕ → List Pt → List (List Pt) → List Pt
  | 0, working, _ => working
  | fuel + 1, working, remaining =>
    match extract_nearest_path working remaining with
    | none => working
    | some (p, i1, i2, rem) => unite_go fuel (join_two_paths working p i1 i2) rem

/-- `pathsunion.PathsJoiner.unite` (result value of `union_path()`): `[]`
for an empty input list (the constructor initialises `self.path = []` and
`unite` returns immediately); otherwise starts from the first path and
splices in the remaining ones, nearest first. -/
def unite (input_paths : List (List Pt)) : List Pt :=
  match input_paths with
  | [] => []
  | p :: rest => unite_go rest.length p rest

/-- The `PathsJoiner` constructor check: `verify_path_closed` on every input
path, in order (first failure wins). -/
def verify_all_paths_closed (input_paths : List (List Pt)) (close_distance : ℚ) :
    Except FoamError Unit :=
  match input_paths with
  | [] => Except.ok ()
  | p :: rest =>
    match verify_path_closed p close_distance with
    | Except.error e => Except.error e
    | Except.ok _ => verify_all_paths_closed rest close_distance

/-! ## Tool angle tracker (`toolpaths.py`)

Directions and angles are real-valued.  `math.atan2(y, x)` is modelled as
`Complex.arg ⟨x, y⟩` (both have range `(-π, π]` with `atan2(0, 0) = 0`), and
Python's `math.fmod` (result has the sign of the dividend, i.e. rounding of
the quotient toward zero) is modelled by `pyFmod`. -/

/-- `math.atan2(y, x)`. -/
noncomputable def atan2 (y x : ℝ) : ℝ := Complex.arg ⟨x, y⟩

/-- Python's `math.fmod(x, y)`: `x - y * trunc(x / y)` (sign of `x`). -/
noncomputable def pyFmod (x y : ℝ) : ℝ :=
  if 0 ≤ x then x - y * ⌊x / y⌋ else x - y * ⌈x / y⌉

/-- `toolpaths.normalize(angle)`: `fmod(angle, pi)`, plus `pi` if negative. -/
noncomputable def normalize (angle : ℝ) : ℝ :=
  if pyFmod angle Real.pi < 0 then pyFmod angle Real.pi + Real.pi
  else pyFmod angle Real.pi

/-- `toolpaths.compute_tool_angle_for_direction(direction)`:
`normalize(atan2(d.y, d.x) + pi/2)`. -/
noncomputable def compute_tool_angle_for_direction (direction : ℝ × ℝ) : ℝ :=
  normalize (atan2 direction.2 direction.1 + Real.pi / 2)

/-- The z component of the cross product computed in
`ToolAngleGenerator.compute_next_tool_angle`. -/
def cross2 (d1 d2 : ℝ × ℝ) : ℝ := d1.1 * d2.2 - d1.2 * d2.1

/-- State of `toolpaths.ToolAngleGenerator`: the winding count plus the
previous angle and direction (`prev_angle` and `prev_dir` are `None`
initially and always assigned together by `next_angle`, so they are bundled
into one `Option`). -/
structure ToolAngleGenerator where
  current_turn : ℤ
  prev : Option (ℝ × (ℝ × ℝ))

/-- The freshly-constructed generator: `current_turn = 0`, no previous data. -/
def ToolAngleGenerator.init : ToolAngleGenerator := ⟨0, none⟩

/-- `ToolAngleGenerator.compute_next_tool_angle(direction)`: returns the new
residue angle together with the updated `current_turn`: on a positive cross
product the turn increments when the new angle wrapped below the previous
one; on a negative cross product it decrements when the new angle wrapped
above; on a zero cross product (aligned directions) the previous angle is
reused. -/
noncomputable def compute_next_tool_angle (current_turn : ℤ) (prev_angle : ℝ)
    (prev_dir direction : ℝ × ℝ) : ℝ × ℤ :=
  if 0 < cross2 prev_dir direction then
    (compute_tool_angle_for_direction direction,
      if compute_tool_angle_for_direction direction < prev_angle then current_turn + 1
      else current_turn)
  else if cross2 prev_dir direction < 0 then
    (compute_tool_angle_for_direction direction,
      if prev_angle < compute_tool_angle_for_direction direction then current_turn - 1
      else current_turn)
  else (prev_angle, current_turn)

/-- `ToolAngleGenerator.next_angle(direction)`: returns the emitted angle
(`angle + pi * current_turn`) and the updated generator state. -/
noncomputable def next_angle (g : ToolAngleGenerator) (direction : ℝ × ℝ) :
    ℝ × ToolAngleGenerator :=
  match g.prev with
  | none =>
    (compute_tool_angle_for_direction direction + Real.pi * g.current_turn,
      ⟨g.current_turn, some (compute_tool_angle_for_direction direction, direction)⟩)
  | some (prev_angle, prev_dir) =>
    ((compute_next_tool_angle g.current_turn prev_angle prev_dir direction).1 +
        Real.pi * (compute_next_tool_angle g.current_turn prev_angle prev_dir direction).2,
      ⟨(compute_next_tool_angle g.current_turn prev_angle prev_dir direction).2,
        some ((compute_next_tool_angle g.current_turn prev_angle prev_dir direction).1,
          direction)⟩)

/-- Successive calls of `next_angle` on a list of directions; the list of
returned angles. -/
noncomputable def next_angles (g : ToolAngleGenerator) : List (ℝ × ℝ) → List ℝ
  | [] => []
  | d :: rest => (next_angle g d).1 :: next_angles (next_angle g d).2 rest

/-! ## Discretizer (`toolpaths.discretize_path`)

`num_steps = int(math.ceil(dist / discretization_step))` with
`dist = sqrt(squared_distance)`; `num_steps2` below computes it from the
squared distance (`num_steps2_eq_ceil` proves it equals `⌈dist / step⌉`).
The source places the intermediate points at
`start + versor * step_length * i` with `versor = vector / dist` and
`step_length = dist / num_steps`; over exact arithmetic the `dist` factors
cancel (`point_for_step_cancel`), leaving `start + vector * i / n`, which is
how `point_for_step` is stated over `ℚ`.  The infinite discretization step
(`float('inf')`, which disables discretization) is modelled as `none`. -/

lemma num_steps2_exists {d2 s : ℚ} (hs : 0 < s) (hd : 0 ≤ d2) :
    ∃ n : ℕ, d2 ≤ ((n : ℚ) * s) ^ 2 := by
  refine ⟨⌈d2 / s ^ 2⌉.toNat + 1, ?_⟩
  set n : ℕ := ⌈d2 / s ^ 2⌉.toNat + 1 with hn
  have hs2 : (0 : ℚ) < s ^ 2 := by positivity
  have h1 : d2 / s ^ 2 ≤ (n : ℚ) := by
    calc d2 / s ^ 2 ≤ (⌈d2 / s ^ 2⌉ : ℚ) := Int.le_ceil _
      _ ≤ ((⌈d2 / s ^ 2⌉.toNat : ℤ) : ℚ) := by exact_mod_cast Int.self_le_toNat _
      _ ≤ (n : ℚ) := by rw [hn]; push_cast; linarith
  have hn1 : (1 : ℚ) ≤ (n : ℚ) := by
    rw [hn]; push_cast; linarith [Nat.cast_nonneg (α := ℚ) ⌈d2 / s ^ 2⌉.toNat]
  have h2 : d2 ≤ (n : ℚ) * s ^ 2 := by
    have := (div_le_iff₀ hs2).mp h1
    linarith
  calc d2 ≤ (n : ℚ) * s ^ 2 := h2
    _ ≤ (n : ℚ) ^ 2 * s ^ 2 := by nlinarith
    _ = ((n : ℚ) * s) ^ 2 := by ring

/-- `ceil(sqrt(d2) / s)` computed from the squared distance `d2`:
the least `n : ℕ` with `d2 ≤ (n * s) ^ 2`.  (The source computes
`int(math.ceil(dist / discretization_step))`; `num_steps2_eq_ceil` below
proves the two agree whenever the step is positive, the only regime the
source supports.) -/
def num_steps2 (d2 s : ℚ) : ℕ :=
  if hs : 0 < s ∧ 0 ≤ d2 then Nat.find (num_steps2_exists hs.1 hs.2) else 0

/-- `point_for_step(start, versor, step_length, step)` after cancelling the
`dist` factors: `start + vector * step / n`. -/
def point_for_step (start vector : Pt) (n : ℕ) (step : ℕ) : Pt :=
  (start.1 + vector.1 * step / n, start.2 + vector.2 * step / n)

/-- The cancellation used above, over the reals: with `versor = v / d` and
`step_length = d / n` (`d ≠ 0`), `start + versor * step_length * i` is
exactly `start + v * i / n`. -/
lemma point_for_step_cancel (start v d : ℝ) (n : ℕ) (i : ℕ) (hd : d ≠ 0) :
    start + v / d * (d / n) * i = start + v * i / n := by
  field_simp

/-- Loop body of `discretize_path` for one consecutive pair: when the pair
is farther apart than the step, the `num_steps - 1` intermediate points
followed by the endpoint; otherwise just the endpoint. -/
def discretize_segment (prev point : Pt) (s : ℚ) : List Pt :=
  if distGT prev point s then
    (List.range' 1 (num_steps2 (squared_distance prev point) s - 1)).map
      (point_for_step prev (point.1 - prev.1, point.2 - prev.2)
        (num_steps2 (squared_distance prev point) s)) ++ [point]
  else [point]

/-- The loop of `discretize_path` over `path[1:]`. -/
def discretize_go (s : ℚ) (prev : Pt) : List Pt → List Pt
  | [] => []
  | point :: tail => discretize_segment prev point s ++ discretize_go s point tail

/-- `toolpaths.discretize_path(path, discretization_step)`: unchanged when
the step is infinite (`none`) or the path has under 2 points, else the first
point followed by the per-segment loop. -/
def discretize_path (path : List Pt) (step : Option ℚ) : List Pt :=
  match step, path with
  | none, _ => path
  | some _, [] => []
  | some s, p0 :: rest =>
    if (p0 :: rest).length < 2 then p0 :: rest
    else p0 :: discretize_go s p0 rest

/-! ## Point-and-direction pairs and the engraving generator (`toolpaths.py`) -/

/-- `toolpaths.PointAndDirection`: a point and the (real-valued) unit
direction of movement toward the next point, or `(0, 0)` when the two points
are nearer than `min_distance`. -/
structure PointAndDirection where
  point : Pt
  direction : ℝ × ℝ
deriving Inhabited

/-- The `PointAndDirection` constructor. -/
noncomputable def mkPointAndDirection (point next_point : Pt) (min_distance : ℚ) :
    PointAndDirection :=
  let vector : Pt := (next_point.1 - point.1, next_point.2 - point.2)
  if vec_length vector < (min_distance : ℝ) then ⟨point, (0, 0)⟩
  else ⟨point, ((vector.1 : ℝ) / vec_length vector, (vector.2 : ℝ) / vec_length vector)⟩

/-- Loop of `EngravingToolPathsGenerator.generate_directions`: each point is
paired with the direction toward its successor, the last point with itself
(direction `(0, 0)`). -/
noncomputable def gen_dirs_go (md : ℚ) (prev : Pt) : List Pt → List PointAndDirection
  | [] => [mkPointAndDirection prev prev md]
  | point :: tail => mkPointAndDirection prev point md :: gen_dirs_go md point tail

/-- `EngravingToolPathsGenerator.generate_directions(path)`. -/
noncomputable def generate_directions (path : List Pt) (md : ℚ) : List PointAndDirection :=
  match path with
  | [] => []
  | p :: rest => gen_dirs_go md p rest

/-- A tool point `(x, y, z, angle)` as produced by the engraving generator. -/
abbrev ToolPt : Type := ℚ × ℚ × ℚ × ℝ

/-- `EngravingToolPathsGenerator.generate_single_path(path)`:
simplify, discretize, compute directions, then feed every direction except
the last through a fresh `ToolAngleGenerator`; the last point repeats the
angle of the previous tool point. -/
noncomputable def generate_single_path (path : List Pt) (tool_z min_distance : ℚ)
    (discretization_step : Option ℚ) : List ToolPt :=
  let simplified := generate_simplified_path path min_distance
  let discretized := discretize_path simplified discretization_step
  let pds := generate_directions discretized min_distance
  match pds with
  | [] => []
  | [pd] => [(pd.point.1, pd.point.2, tool_z, (0 : ℝ))]
  | pd :: pd2 :: rest =>
    let front := (pd :: pd2 :: rest).dropLast
    let angles := next_angles ToolAngleGenerator.init (front.map (fun q => q.direction))
    let tool_front := List.zipWith
      (fun (q : PointAndDirection) (a : ℝ) => (q.point.1, q.point.2, tool_z, a)) front angles
    tool_front ++
      [(((pd :: pd2 :: rest).getLastI).point.1, ((pd :: pd2 :: rest).getLastI).point.2, tool_z,
        (tool_front.map (fun t => t.2.2.2)).getLastI)]

/-- `EngravingToolPathsGenerator.generate` (value of `paths()`): one tool
path per input path. -/
noncomputable def engraving_generate (input_paths : List (List Pt)) (tool_z min_distance : ℚ)
    (discretization_step : Option ℚ) : List (List ToolPt) :=
  input_paths.map (fun p => generate_single_path p tool_z min_distance discretization_step)

/-- The `CuttingToolPathsGenerator` constructor: checks that the input path
is closed, then stores it. -/
def cutting_tool_paths_generator_init (input_path : List Pt) (close_distance : ℚ) :
    Except FoamError (List Pt) :=
  match verify_path_closed input_path close_distance with
  | Except.error e => Except.error e
  | Except.ok _ => Except.ok input_path

/-- `CuttingToolPathsGenerator.generate` (value of `path()`): `none` for an
empty input path, otherwise the path rotated to start at the point nearest
the origin. -/
def cutting_generate (input_path : List Pt) : Option (List Pt) :=
  if input_path = [] then none
  else some (rotate_closed_path input_path (point_path_squared_distance (0, 0) input_path).2)

/-! ## G-code emitters (`gcode.py`)

The cutting emitter only ever formats rational data, so its output is
modelled as the literal string the source builds (`"{:5.3f}"` becomes
`fmt_fixed3`: three fixed decimals, rounding half to even, right-aligned in
at least five columns; `"{:d}"` becomes `toString` of the integer).  The
engraving emitter formats real-valued angles, so its output is modelled as
the list of structured commands the source writes, with the numeric fields
kept as real numbers. -/

/-- Round a rational to the nearest integer, halves to even (the rounding
used by Python's fixed-point float formatting). -/
def round_half_even (q : ℚ) : ℤ :=
  let f := ⌊q⌋
  let r := q - f
  if r < 1 / 2 then f
  else if 1 / 2 < r then f + 1
  else if f % 2 = 0 then f else f + 1

/-- Left-pad a string to length `n` with the character `c`. -/
def pad_left (s : String) (c : Char) (n : ℕ) : String :=
  String.mk (List.replicate (n - s.length) c) ++ s

/-- Python's `"{:5.3f}".format(q)`: three decimals, width at least 5. -/
def fmt_fixed3 (q : ℚ) : String :=
  let m := round_half_even (q * 1000)
  let a := m.natAbs
  let digits := (if m < 0 then "-" else "") ++ toString (a / 1000) ++ "." ++
    pad_left (toString (a % 1000)) '0' 3
  pad_left digits ' ' 5

/-- The `CuttingGCodeGenerator` constructor's temperature conversion:
`(temperature * 255) / 100` with Python 2 integer floor division
(`temperature` is an `int` command-line option). -/
def cutting_temperature (temperature : ℤ) : ℤ := Int.fdiv (temperature * 255) 100

/-- `CuttingGCodeGenerator.generate` (value of `gcode()`): `none` for an
empty tool path, otherwise the literal g-code text. -/
def cutting_gcode_generate (tool_path : List Pt) (speed : ℚ) (temperature : ℤ) :
    Option String :=
  if tool_path = [] then none
  else some (
    "M3\n" ++
    "G92 X0 Y0 Z0 \n" ++
    "M106 S" ++ toString (cutting_temperature temperature) ++ "\n" ++
    "G4 P10000 ; Dwell for 10 second \n" ++
    "G01 F" ++ fmt_fixed3 speed ++ "\n" ++
    String.join (tool_path.map
      (fun p => "G01 X" ++ fmt_fixed3 p.1 ++ " Y" ++ fmt_fixed3 p.2 ++ "\n")) ++
    "G01 X0.000 Y0.000\n" ++
    "M107\n" ++
    "M4\n")

/-- One emitted engraving command: the command word plus the optional
`X`/`Y`/`Z`/`E` fields (the `E` field already converted by `to_extrusion`). -/
structure GCodeMove where
  command : String
  x : Option ℝ
  y : Option ℝ
  z : Option ℝ
  e : Option ℝ

/-- `EngravingGCodeGenerator.to_extrusion(angle)`:
`math.degrees(angle) / mm_per_degree`. -/
noncomputable def to_extrusion (mm_per_degree : ℝ) (angle : ℝ) : ℝ :=
  angle * 180 / Real.pi / mm_per_degree

/-- `gcode.distance`: Euclidean distance between two 3D points. -/
noncomputable def dist3 (p1 p2 : ℝ × ℝ × ℝ) : ℝ :=
  Real.sqrt ((p1.1 - p2.1) ^ 2 + (p1.2.1 - p2.2.1) ^ 2 + (p1.2.2 - p2.2.2) ^ 2)

/-- `EngravingGCodeGenerator.points_nearby`. -/
noncomputable def points_nearby (small_distance small_angle : ℝ) (p1 p2 : ToolPt) : Prop :=
  dist3 ((p1.1 : ℝ), (p1.2.1 : ℝ), (p1.2.2.1 : ℝ)) ((p2.1 : ℝ), (p2.2.1 : ℝ), (p2.2.2.1 : ℝ)) <
      small_distance ∧
    |p1.2.2.2 - p2.2.2.2| < small_angle

section EngravingEmitter

attribute [local instance] Classical.propDecidable

/-- The per-point loop of `EngravingGCodeGenerator.generate_single_path`:
nearby points get one combined move, others a positional then a rotary move. -/
noncomputable def engraving_moves_go (mmpd small_distance small_angle : ℝ) (prev : ToolPt) :
    List ToolPt → List GCodeMove
  | [] => []
  | point :: tail =>
    (if points_nearby small_distance small_angle prev point then
      ([⟨"G01", some (point.1 : ℝ), some (point.2.1 : ℝ), some (point.2.2.1 : ℝ),
        some (to_extrusion mmpd point.2.2.2)⟩] : List GCodeMove)
    else
      ([⟨"G01", some (point.1 : ℝ), some (point.2.1 : ℝ), some (point.2.2.1 : ℝ), none⟩,
        ⟨"G01", none, none, none, some (to_extrusion mmpd point.2.2.2)⟩] : List GCodeMove)) ++
    engraving_moves_go mmpd small_distance small_angle point tail

/-- `EngravingGCodeGenerator.generate_single_path(path)`. -/
noncomputable def engraving_single_path_gcode (mmpd safe_z small_distance small_angle : ℝ) :
    List ToolPt → List GCodeMove
  | [] => []
  | first :: rest =>
    ⟨"G00", some (first.1 : ℝ), some (first.2.1 : ℝ), none,
      some (to_extrusion mmpd first.2.2.2)⟩ ::
    ⟨"G01", none, none, some (first.2.2.1 : ℝ), none⟩ ::
    (engraving_moves_go mmpd small_distance small_angle first rest ++
      [⟨"G01", none, none, some safe_z, none⟩])

/-- `EngravingGCodeGenerator.generate` (value of `gcode()`): the constructor
drops empty paths; generation yields `none` when nothing remains, otherwise
the full command list. -/
noncomputable def engraving_gcode_generate (tool_paths : List (List ToolPt))
    (mmpd safe_z small_distance small_angle : ℝ) : Option (List GCodeMove) :=
  let tps := tool_paths.filter (fun p => p.length != 0)
  if tps.isEmpty then none
  else some (
    ⟨"M3", none, none, none, none⟩ ::
    ⟨"G01 F300", none, none, none, none⟩ ::
    ⟨"G00", none, none, some safe_z, none⟩ ::
    ((tps.map (engraving_single_path_gcode mmpd safe_z small_distance small_angle)).flatten ++
      [⟨"G00", some 0, some 0, none, some (to_extrusion mmpd 0)⟩,
        ⟨"G00", none, none, some 0, none⟩,
        ⟨"M4", none, none, none, none⟩]))

end EngravingEmitter

/-! ## Argmin specifications for the nearest-path search

These predicates state what the scans of `point_path_squared_distance`,
`compute_paths_distance` and `extract_nearest_path` return: the minimal
squared distance together with the earliest indices attaining it. -/

/-- `(d, i)` is the nearest-point result for `point` against `path`:
`i` is in range, `d` is the squared distance to `path[i]`, no path point is
closer, and every point before index `i` is strictly farther. -/
def IsNearest (point : Pt) (path : List Pt) (d : ℚ) (i : ℕ) : Prop :=
  i < path.length ∧ d = squared_distance point (path.getD i (0, 0)) ∧
  (∀ k < path.length, d ≤ squared_distance point (path.getD k (0, 0))) ∧
  (∀ k < i, d < squared_distance point (path.getD k (0, 0)))

/-- `(d, i1, i2)` is the nearest-pair result between `path1` and `path2`:
`(d, i2)` is the nearest-point result of `path1[i1]` against `path2`, no
point pair is closer, and every `path1` index before `i1` gives strictly
farther pairs. -/
def IsNearestPair (path1 path2 : List Pt) (d : ℚ) (i1 i2 : ℕ) : Prop :=
  i1 < path1.length ∧
  IsNearest (path1.getD i1 (0, 0)) path2 d i2 ∧
  (∀ a < path1.length, ∀ b < path2.length,
    d ≤ squared_distance (path1.getD a (0, 0)) (path2.getD b (0, 0))) ∧
  (∀ a < i1, ∀ b < path2.length,
    d < squared_distance (path1.getD a (0, 0)) (path2.getD b (0, 0)))

/-- `(d, j, i1, i2)` is the nearest-pool result: pool entry `j` realises the
globally smallest path distance `d` (with nearest indices `i1`, `i2`), and
every pool entry before `j` is strictly farther. -/
def IsNearestPool (working : List Pt) (remaining : List (List Pt))
    (d : ℚ) (j i1 i2 : ℕ) : Prop :=
  j < remaining.length ∧
  (d, i1, i2) = compute_paths_distance working (remaining.getD j []) ∧
  (∀ k < remaining.length,
    d ≤ (compute_paths_distance working (remaining.getD k [])).1) ∧
  (∀ k < j, d < (compute_paths_distance working (remaining.getD k [])).1)

/-- The selection `(j, i1, i2)` is optimal in the sense of claim C5: its
squared point-pair distance beats every other pairing, and exact ties are
resolved by the earliest pool index, then the earliest working-path index,
then the earliest candidate index. -/
def SelectionOptimal (working : List Pt) (remaining : List (List Pt)) (j i1 i2 : ℕ) : Prop :=
  j < remaining.length ∧ i1 < working.length ∧ i2 < (remaining.getD j []).length ∧
  ∀ j' < remaining.length, ∀ a < working.length, ∀ b < (remaining.getD j' []).length,
    squared_distance (working.getD i1 (0, 0)) ((remaining.getD j []).getD i2 (0, 0)) <
        squared_distance (working.getD a (0, 0)) ((remaining.getD j' []).getD b (0, 0)) ∨
      (squared_distance (working.getD i1 (0, 0)) ((remaining.getD j []).getD i2 (0, 0)) =
          squared_distance (working.getD a (0, 0)) ((remaining.getD j' []).getD b (0, 0)) ∧
        (j < j' ∨ (j = j' ∧ (i1 < a ∨ (i1 = a ∧ i2 ≤ b)))))

/-- The multiset of points of a path (used to state the path-union
accounting facts). -/
def coeMS (p : List Pt) : Multiset Pt := ↑p

/-! # Claim C1: the simplifier -/

/-- C1, counterexample: on the path `[(0,0), (1,0)]` with `minDistance = 2`
the simplifier returns `[(0,0)]`: the final input point `(1,0)` is neither
the last output point nor in the output at all, refuting "the final point of
the input path is always present as the last point of the output". -/
theorem c1_counterexample :
    (generate_simplified_path [((0 : ℚ), (0 : ℚ)), ((1 : ℚ), (0 : ℚ))] 2).getLastI ≠
      ([((0 : ℚ), (0 : ℚ)), ((1 : ℚ), (0 : ℚ))] : List Pt).getLastI ∧
    ((1 : ℚ), (0 : ℚ)) ∉ generate_simplified_path [((0 : ℚ), (0 : ℚ)), ((1 : ℚ), (0 : ℚ))] 2 := by
  have h : generate_simplified_path [((0 : ℚ), (0 : ℚ)), ((1 : ℚ), (0 : ℚ))] 2 =
      [((0 : ℚ), (0 : ℚ))] := by
    norm_num [generate_simplified_path, simplify_go, distGT, squared_distance, squared_length]
  have g1 : (generate_simplified_path [((0 : ℚ), (0 : ℚ)), ((1 : ℚ), (0 : ℚ))] 2).getLastI =
      ((0 : ℚ), (0 : ℚ)) := by
    rw [h]
    rfl
  have g2 : ([((0 : ℚ), (0 : ℚ)), ((1 : ℚ), (0 : ℚ))] : List Pt).getLastI =
      ((1 : ℚ), (0 : ℚ)) := rfl
  refine ⟨?_, ?_⟩
  · rw [g1, g2]
    intro hcontra
    exact zero_ne_one (congrArg Prod.fst hcontra)
  · rw [h]
    intro hmem
    rw [List.mem_singleton] at hmem
    exact one_ne_zero (congrArg Prod.fst hmem)

/-- C1, amended: for every nonempty input path, the simplifier walks the
path in order keeping the first point, and afterwards a point only if its
distance from the last kept point exceeds `minDistance` (consecutive output
points are farther apart than `minDistance`, and the output is a
subsequence of the input starting at its first point); the output ends at
the last *kept* point, which is within `minDistance` of the final input
point (for nonnegative `minDistance`) but need not equal it. -/
theorem c1_simplify_amended (path : List Pt) (md : ℚ) (hpath : path ≠ []) :
    generate_simplified_path path md ≠ [] ∧
    (generate_simplified_path path md).headI = path.headI ∧
    (generate_simplified_path path md).Sublist path ∧
    (generate_simplified_path path md).Chain' (fun a b => (md : ℝ) < distR b a) ∧
    (0 ≤ md → distR (generate_simplified_path path md).getLastI path.getLastI ≤ (md : ℝ)) := by
  cases path with
  | nil => exact absurd rfl hpath
  | cons p0 rest =>
    refine ⟨?_, ?_, ?_, ?_, ?_⟩
    · simpa [generate_simplified_path] using simplify_go_ne_nil md p0 rest
    · simpa [generate_simplified_path] using simplify_go_head md p0 rest
    · simpa [generate_simplified_path] using simplify_go_sublist md p0 rest
    · have h := simplify_go_chain md p0 rest
      refine List.Chain'.imp ?_ (by simpa [generate_simplified_path] using h)
      intro a b hab
      exact (distGT_iff_distR b a md).mp hab
    · intro hmd
      simpa [generate_simplified_path] using simplify_go_last md hmd p0 rest

/-- C1, witness for the amended theorem at a concrete input. -/
theorem c1_simplify_amended_witness :
    ([((0 : ℚ), (0 : ℚ)), ((3 : ℚ), (0 : ℚ)), ((3 : ℚ), (1 : ℚ))] : List Pt) ≠ [] ∧
    (generate_simplified_path [((0 : ℚ), (0 : ℚ)), ((3 : ℚ), (0 : ℚ)), ((3 : ℚ), (1 : ℚ))] 1 ≠ [] ∧
      (generate_simplified_path
        [((0 : ℚ), (0 : ℚ)), ((3 : ℚ), (0 : ℚ)), ((3 : ℚ), (1 : ℚ))] 1).headI =
        ([((0 : ℚ), (0 : ℚ)), ((3 : ℚ), (0 : ℚ)), ((3 : ℚ), (1 : ℚ))] : List Pt).headI ∧
      (generate_simplified_path
        [((0 : ℚ), (0 : ℚ)), ((3 : ℚ), (0 : ℚ)), ((3 : ℚ), (1 : ℚ))] 1).Sublist
        [((0 : ℚ), (0 : ℚ)), ((3 : ℚ), (0 : ℚ)), ((3 : ℚ), (1 : ℚ))] ∧
      (generate_simplified_path
        [((0 : ℚ), (0 : ℚ)), ((3 : ℚ), (0 : ℚ)), ((3 : ℚ), (1 : ℚ))] 1).Chain'
        (fun a b => ((1 : ℚ) : ℝ) < distR b a) ∧
      ((0 : ℚ) ≤ 1 → distR (generate_simplified_path
          [((0 : ℚ), (0 : ℚ)), ((3 : ℚ), (0 : ℚ)), ((3 : ℚ), (1 : ℚ))] 1).getLastI
          ([((0 : ℚ), (0 : ℚ)), ((3 : ℚ), (0 : ℚ)), ((3 : ℚ), (1 : ℚ))] : List Pt).getLastI ≤
          ((1 : ℚ) : ℝ))) :=
  ⟨by simp, c1_simplify_amended _ 1 (by simp)⟩

/-! # Claim C7: rotation of a closed path -/

lemma getLastI_mem {α : Type} [Inhabited α] {l : List α} (h : l ≠ []) : l.getLastI ∈ l := by
  rw [List.getLastI_eq_getLast?, List.getLast?_eq_getLast l h]
  exact List.getLast_mem h

/-- The rotation of a closed path to a middle index, in decomposed form:
if the path is `a :: (u ++ x :: v)` with `v ≠ []` then rotating to the index
of `x` (namely `u.length + 1`) yields `(x :: v) ++ (u ++ [x])`. -/
lemma rotate_closed_path_decomp (a x : Pt) (u v : List Pt) (hv : v ≠ []) :
    rotate_closed_path (a :: (u ++ x :: v)) (u.length + 1) = (x :: v) ++ (u ++ [x]) := by
  have hvpos : 0 < v.length := List.length_pos.mpr hv
  have hcond : ¬(u.length + 1 = 0 ∨ (a :: (u ++ x :: v)).length - 1 ≤ u.length + 1) := by
    push_neg
    refine ⟨by omega, ?_⟩
    simp only [List.length_cons, List.length_append]
    omega
  rw [rotate_closed_path, if_neg (List.cons_ne_nil _ _), if_neg hcond,
    List.drop_succ_cons, List.drop_one, List.tail_cons, List.drop_left' (rfl : u.length = u.length)]
  congr 1
  have hux : u ++ x :: v = (u ++ [x]) ++ v := by
    rw [List.append_assoc, List.singleton_append]
  rw [hux, List.take_left' (by simp)]

lemma rotate_closed_path_zero (path : List Pt) : rotate_closed_path path 0 = path := by
  by_cases h : path = []
  · rw [h]
    rfl
  · simp [rotate_closed_path, h]

lemma rotate_closed_path_high (path : List Pt) (ns : ℕ) (h : path.length - 1 ≤ ns) :
    rotate_closed_path path ns = path := by
  by_cases hp : path = []
  · rw [hp]
    rfl
  · simp [rotate_closed_path, hp, h]

/-- C7: for a closed path (first point equal to last point), rotating to
index `0` or to any index at least `L - 1` is the identity; for `0 < ns <
L - 1` the result keeps the length, starts and ends at the new start point
`path[ns]`, consists of exactly the same points (same `toFinset`), and its
multiset of points is that of the input with one copy of the old closure
point traded for an extra copy of the new start point. -/
theorem c7_rotate_closed_path (path : List Pt) (hclosed : path.headI = path.getLastI) :
    rotate_closed_path path 0 = path ∧
    (∀ ns, path.length - 1 ≤ ns → rotate_closed_path path ns = path) ∧
    (∀ ns, 0 < ns → ns < path.length - 1 →
      (rotate_closed_path path ns).length = path.length ∧
      (rotate_closed_path path ns).headI = path.getD ns (0, 0) ∧
      (rotate_closed_path path ns).getLastI = path.getD ns (0, 0) ∧
      (↑(rotate_closed_path path ns) : Multiset Pt) + {path.headI} =
        (↑path : Multiset Pt) + {path.getD ns (0, 0)} ∧
      (rotate_closed_path path ns).toFinset = path.toFinset) := by
  refine ⟨rotate_closed_path_zero path, fun ns h => rotate_closed_path_high path ns h, ?_⟩
  intro ns hns0 hns1
  cases path with
  | nil => simp at hns1
  | cons a t =>
    obtain ⟨k, rfl⟩ : ∃ k, ns = k + 1 := ⟨ns - 1, by omega⟩
    have hkt : k + 1 < t.length := by
      simpa using hns1
    have hkk : k < t.length := by omega
    obtain ⟨u, x, v, hu, hv, hteq⟩ : ∃ (u : List Pt) (x : Pt) (v : List Pt),
        u.length = k ∧ v ≠ [] ∧ t = u ++ x :: v := by
      refine ⟨t.take k, t.get ⟨k, hkk⟩, t.drop (k + 1), ?_, ?_, ?_⟩
      · simp only [List.length_take]
        omega
      · have : (t.drop (k + 1)).length = t.length - (k + 1) := List.length_drop _ _
        intro hnil
        rw [hnil] at this
        simp at this
        omega
      · conv_lhs => rw [← List.take_append_drop k t]
        congr 1
        rw [List.drop_eq_getElem_cons hkk]
        rfl
    subst hteq
    subst hu
    have hrot := rotate_closed_path_decomp a x u v hv
    have hgetD : (a :: (u ++ x :: v)).getD (u.length + 1) ((0 : ℚ), (0 : ℚ)) = x := by
      rw [List.getD_cons_succ]
      have hlen : u.length < (u ++ x :: v).length := by
        simp
      rw [List.getD_eq_getElem _ _ hlen, List.getElem_append_right (Nat.le_refl _)]
      simp
    have hmem_a : a ∈ u ++ x :: v := by
      have hconsLast : (a :: (u ++ x :: v)).getLastI = (u ++ x :: v).getLastI :=
        getLastI_cons_of_ne_nil a (by simp)
      have ha : a = (u ++ x :: v).getLastI := by
        have h0 : (a :: (u ++ x :: v)).headI = a := List.headI_cons
        rw [h0, hconsLast] at hclosed
        exact hclosed
      rw [ha]
      exact getLastI_mem (by simp)
    rw [hrot, hgetD]
    refine ⟨?_, ?_, ?_, ?_, ?_⟩
    · simp only [List.length_append, List.length_cons, List.length_nil]
      omega
    · simp
    · rw [List.getLastI_eq_getLast?]
      have hshape : x :: (v ++ (u ++ [x])) = (x :: (v ++ u)) ++ [x] := by
        simp
      rw [List.cons_append, hshape, List.getLast?_concat]
    · have econs : ∀ (y : Pt) (l : List Pt), (↑(y :: l) : Multiset Pt) = {y} + ↑l := by
        intro y l
        rw [Multiset.singleton_add, Multiset.cons_coe]
      have e1 : (↑((x :: v) ++ (u ++ [x])) : Multiset Pt) = ({x} + ↑v) + (↑u + {x}) :=
        calc (↑((x :: v) ++ (u ++ [x])) : Multiset Pt)
            = ↑(x :: v) + ↑(u ++ [x]) := (Multiset.coe_add _ _).symm
          _ = ({x} + ↑v) + (↑u + {x}) := by
              rw [econs]
              congr 1
      have e2 : (↑(a :: (u ++ x :: v)) : Multiset Pt) = {a} + (↑u + ({x} + ↑v)) :=
        calc (↑(a :: (u ++ x :: v)) : Multiset Pt)
            = {a} + ↑(u ++ x :: v) := econs a _
          _ = {a} + (↑u + ↑(x :: v)) := by rw [Multiset.coe_add]
          _ = {a} + (↑u + ({x} + ↑v)) := by rw [econs]
      rw [List.headI_cons, e1, e2]
      abel
    · ext y
      simp only [List.mem_toFinset, List.mem_append, List.mem_cons]
      simp only [List.mem_append, List.mem_cons] at hmem_a
      constructor
      · rintro ((rfl | h) | (h | (rfl | h)))
        · exact Or.inr (Or.inr (Or.inl rfl))
        · exact Or.inr (Or.inr (Or.inr h))
        · exact Or.inr (Or.inl h)
        · exact Or.inr (Or.inr (Or.inl rfl))
        · simp at h
      · rintro (rfl | (h | (rfl | h)))
        · rcases hmem_a with h | (h | h)
          · exact Or.inr (Or.inl h)
          · exact Or.inl (Or.inl h)
          · exact Or.inl (Or.inr h)
        · exact Or.inr (Or.inl h)
        · exact Or.inl (Or.inl rfl)
        · exact Or.inl (Or.inr h)

/-- C7, witness: the unit square rotated to index 2. -/
theorem c7_rotate_closed_path_witness :
    ([((0 : ℚ), (0 : ℚ)), ((1 : ℚ), (0 : ℚ)), ((1 : ℚ), (1 : ℚ)), ((0 : ℚ), (1 : ℚ)),
        ((0 : ℚ), (0 : ℚ))] : List Pt).headI =
      ([((0 : ℚ), (0 : ℚ)), ((1 : ℚ), (0 : ℚ)), ((1 : ℚ), (1 : ℚ)), ((0 : ℚ), (1 : ℚ)),
        ((0 : ℚ), (0 : ℚ))] : List Pt).getLastI ∧
    (rotate_closed_path [((0 : ℚ), (0 : ℚ)), ((1 : ℚ), (0 : ℚ)), ((1 : ℚ), (1 : ℚ)),
        ((0 : ℚ), (1 : ℚ)), ((0 : ℚ), (0 : ℚ))] 0 =
      [((0 : ℚ), (0 : ℚ)), ((1 : ℚ), (0 : ℚ)), ((1 : ℚ), (1 : ℚ)), ((0 : ℚ), (1 : ℚ)),
        ((0 : ℚ), (0 : ℚ))]) := by
  refine ⟨rfl, ?_⟩
  exact (c7_rotate_closed_path
    [((0 : ℚ), (0 : ℚ)), ((1 : ℚ), (0 : ℚ)), ((1 : ℚ), (1 : ℚ)), ((0 : ℚ), (1 : ℚ)),
      ((0 : ℚ), (0 : ℚ))] rfl).1

/-! # Claim C8: empty inputs -/

/-- C8: on empty input nothing raises and everything returns an
absent/empty result: the union of no contours is the empty path (and the
joiner constructor's closure check passes), the cutting generator
constructor accepts the empty path and generates `none`, the engraving
generator yields an empty list of tool paths, and both emitters yield
`none`. -/
theorem c8_empty_inputs (cd tz md speed : ℚ) (ds : Option ℚ) (temp : ℤ)
    (mmpd safe_z sd sa : ℝ) :
    unite [] = [] ∧
    verify_all_paths_closed [] cd = Except.ok () ∧
    cutting_tool_paths_generator_init [] cd = Except.ok [] ∧
    cutting_generate [] = none ∧
    engraving_generate [] tz md ds = [] ∧
    engraving_gcode_generate [] mmpd safe_z sd sa = none ∧
    cutting_gcode_generate [] speed temp = none :=
  ⟨rfl, rfl, rfl, rfl, rfl, rfl, rfl⟩

/-! # Claim C9: the cutting emitter's temperature mapping -/

/-- C9, counterexample: at `t = 50` the emitted heat duty is
`(50 * 255) / 100 = 127` by integer floor division, which differs from the
exact linear value `50·255/100 = 127.5`; so `n = t·255/100` does not hold
exactly on `[0, 100]`. -/
theorem c9_counterexample :
    cutting_temperature 50 = 127 ∧ ((127 : ℚ) ≠ 50 * 255 / 100) := by
  constructor
  · rfl
  · norm_num

/-- C9, amended: the emitted duty value is `⌊t·255/100⌋` (Python 2 integer
floor division), which still maps `0` to `0` and `100` to `255` and stays
within `[0, 255]` for `t ∈ [0, 100]`; the `M106 S<n>` command of the
generated g-code carries exactly this value. -/
theorem c9_cutting_temperature_amended (t : ℤ) (h0 : 0 ≤ t) (h1 : t ≤ 100) :
    cutting_temperature t = ⌊((t : ℚ) * 255) / 100⌋ ∧
    0 ≤ cutting_temperature t ∧ cutting_temperature t ≤ 255 ∧
    (t = 0 → cutting_temperature t = 0) ∧
    (t = 100 → cutting_temperature t = 255) ∧
    (∀ (path : List Pt) (speed : ℚ) (p : Pt),
      cutting_gcode_generate (p :: path) speed t =
        some (
          "M3\n" ++
          "G92 X0 Y0 Z0 \n" ++
          "M106 S" ++ toString (cutting_temperature t) ++ "\n" ++
          "G4 P10000 ; Dwell for 10 second \n" ++
          "G01 F" ++ fmt_fixed3 speed ++ "\n" ++
          String.join ((p :: path).map
            (fun q => "G01 X" ++ fmt_fixed3 q.1 ++ " Y" ++ fmt_fixed3 q.2 ++ "\n")) ++
          "G01 X0.000 Y0.000\n" ++
          "M107\n" ++
          "M4\n")) := by
  have hfloor : cutting_temperature t = ⌊((t : ℚ) * 255) / 100⌋ := by
    have hcast : ((t : ℚ) * 255) = ((t * 255 : ℤ) : ℚ) := by
      push_cast
      ring
    rw [hcast]
    have h100 : ((100 : ℚ)) = ((100 : ℕ) : ℚ) := by norm_num
    rw [h100, Rat.floor_intCast_div_natCast]
    unfold cutting_temperature
    rw [Int.fdiv_eq_ediv _ (by norm_num)]
    norm_num
  refine ⟨hfloor, ?_, ?_, ?_, ?_, ?_⟩
  · rw [hfloor]
    positivity
  · rw [hfloor]
    have : ((t : ℚ) * 255) / 100 ≤ 255 := by
      rw [div_le_iff₀ (by norm_num : (0 : ℚ) < 100)]
      have ht : (t : ℚ) ≤ 100 := by exact_mod_cast h1
      nlinarith
    calc ⌊((t : ℚ) * 255) / 100⌋ ≤ ⌊(255 : ℚ)⌋ := Int.floor_le_floor this
      _ = 255 := by norm_num
  · rintro rfl
    rfl
  · rintro rfl
    rfl
  · intro path speed p
    simp [cutting_gcode_generate]

/-- C9, witness for the amended theorem at `t = 50`. -/
theorem c9_cutting_temperature_amended_witness :
    (0 : ℤ) ≤ 50 ∧ (50 : ℤ) ≤ 100 ∧
    (cutting_temperature 50 = ⌊((50 : ℚ) * 255) / 100⌋ ∧
      0 ≤ cutting_temperature 50 ∧ cutting_temperature 50 ≤ 255 ∧
      ((50 : ℤ) = 0 → cutting_temperature 50 = 0) ∧
      ((50 : ℤ) = 100 → cutting_temperature 50 = 255) ∧
      (∀ (path : List Pt) (speed : ℚ) (p : Pt),
        cutting_gcode_generate (p :: path) speed 50 =
          some (
            "M3\n" ++
            "G92 X0 Y0 Z0 \n" ++
            "M106 S" ++ toString (cutting_temperature 50) ++ "\n" ++
            "G4 P10000 ; Dwell for 10 second \n" ++
            "G01 F" ++ fmt_fixed3 speed ++ "\n" ++
            String.join ((p :: path).map
              (fun q => "G01 X" ++ fmt_fixed3 q.1 ++ " Y" ++ fmt_fixed3 q.2 ++ "\n")) ++
            "G01 X0.000 Y0.000\n" ++
            "M107\n" ++
            "M4\n"))) :=
  ⟨by decide, by decide, c9_cutting_temperature_amended 50 (by decide) (by decide)⟩

/-! # Claim C4: the closure check -/

lemma verify_path_closed_error_iff (path : List Pt) (cd : ℚ) :
    verify_path_closed path cd = Except.error FoamError.invalidCuttingPath ↔
      1 < path.length ∧ (cd : ℝ) < distR path.headI path.getLastI := by
  cases path with
  | nil => simp [verify_path_closed]
  | cons p rest =>
    rw [verify_path_closed]
    split_ifs with h
    · simp only [List.headI_cons, true_iff]
      exact ⟨h.1, (distGT_iff_distR _ _ _).mp h.2⟩
    · constructor
      · intro hcontra
        exact absurd hcontra (by simp)
      · intro hcontra
        refine absurd ?_ h
        exact ⟨hcontra.1, (distGT_iff_distR _ _ _).mpr hcontra.2⟩

lemma verify_all_paths_closed_error_iff (paths : List (List Pt)) (cd : ℚ) :
    verify_all_paths_closed paths cd = Except.error FoamError.invalidCuttingPath ↔
      ∃ p ∈ paths, 1 < p.length ∧ (cd : ℝ) < distR p.headI p.getLastI := by
  induction paths with
  | nil => simp [verify_all_paths_closed]
  | cons p rest ih =>
    rw [verify_all_paths_closed]
    cases hv : verify_path_closed p cd with
    | error e =>
      cases e
      simp only [List.mem_cons, true_iff]
      exact ⟨p, Or.inl rfl, (verify_path_closed_error_iff p cd).mp hv⟩
    | ok u =>
      rw [ih]
      constructor
      · rintro ⟨q, hq, hcond⟩
        exact ⟨q, List.mem_cons_of_mem p hq, hcond⟩
      · rintro ⟨q, hq, hcond⟩
        rcases List.mem_cons.mp hq with rfl | hq'
        · exfalso
          have := (verify_path_closed_error_iff q cd).mpr hcond
          rw [hv] at this
          exact absurd this (by simp)
        · exact ⟨q, hq', hcond⟩

/-- C4: `verify_path_closed` raises `InvalidCuttingPath` iff the path has
more than one point and the distance between its first and last point
exceeds `closeDistance`; a path with at most one point always passes.  The
`PathsJoiner` constructor applies the check to every input path (it raises
iff some input path fails the check) and the `CuttingToolPathsGenerator`
constructor applies it to its single input path. -/
theorem c4_closure_check (path input : List Pt) (paths : List (List Pt)) (cd : ℚ) :
    (verify_path_closed path cd = Except.error FoamError.invalidCuttingPath ↔
      1 < path.length ∧ (cd : ℝ) < distR path.headI path.getLastI) ∧
    (path.length ≤ 1 → verify_path_closed path cd = Except.ok ()) ∧
    (verify_all_paths_closed paths cd = Except.error FoamError.invalidCuttingPath ↔
      ∃ p ∈ paths, 1 < p.length ∧ (cd : ℝ) < distR p.headI p.getLastI) ∧
    (cutting_tool_paths_generator_init input cd = Except.error FoamError.invalidCuttingPath ↔
      1 < input.length ∧ (cd : ℝ) < distR input.headI input.getLastI) := by
  refine ⟨verify_path_closed_error_iff path cd, ?_, verify_all_paths_closed_error_iff paths cd, ?_⟩
  · intro hlen
    cases hv : verify_path_closed path cd with
    | error e =>
      cases e
      have := (verify_path_closed_error_iff path cd).mp hv
      omega
    | ok u => rfl
  · rw [cutting_tool_paths_generator_init]
    cases hv : verify_path_closed input cd with
    | error e =>
      cases e
      simp only [true_iff]
      exact (verify_path_closed_error_iff input cd).mp hv
    | ok u =>
      constructor
      · intro hcontra
        exact absurd hcontra (by simp)
      · intro hcond
        have := (verify_path_closed_error_iff input cd).mpr hcond
        rw [hv] at this
        exact absurd this (by simp)

/-- C4, witness at a concrete non-closed two-point path. -/
theorem c4_closure_check_witness :
    ([((0 : ℚ), (0 : ℚ))] : List Pt).length ≤ 1 ∧
    verify_path_closed [((0 : ℚ), (0 : ℚ))] (1 / 2) = Except.ok () :=
  ⟨by decide, (c4_closure_check [((0 : ℚ), (0 : ℚ))] [] [] (1 / 2)).2.1 (by decide)⟩

/-! # Claim C10: `PointAndDirection` never divides by zero -/

/-- C10: for `min_distance > 0` the `PointAndDirection` constructor is
safe: when the segment is shorter than `min_distance` the direction is
exactly `(0, 0)`; otherwise the segment length is nonzero (so the division
is by a nonzero number) and the direction is a unit vector; in every case
the direction is `(0, 0)` or a unit vector. -/
theorem c10_point_and_direction (point next_point : Pt) (md : ℚ) (hmd : 0 < md) :
    ((vec_length (next_point.1 - point.1, next_point.2 - point.2) < (md : ℝ)) →
      (mkPointAndDirection point next_point md).direction = (0, 0)) ∧
    (¬(vec_length (next_point.1 - point.1, next_point.2 - point.2) < (md : ℝ)) →
      vec_length (next_point.1 - point.1, next_point.2 - point.2) ≠ 0 ∧
      (mkPointAndDirection point next_point md).direction.1 ^ 2 +
        (mkPointAndDirection point next_point md).direction.2 ^ 2 = 1) ∧
    ((mkPointAndDirection point next_point md).direction = (0, 0) ∨
      (mkPointAndDirection point next_point md).direction.1 ^ 2 +
        (mkPointAndDirection point next_point md).direction.2 ^ 2 = 1) := by
  set v : Pt := (next_point.1 - point.1, next_point.2 - point.2) with hv
  have hL0 : 0 ≤ vec_length v := Real.sqrt_nonneg _
  have hsq0 : (0 : ℝ) ≤ ((squared_length v : ℚ) : ℝ) := by
    exact_mod_cast squared_length_nonneg v
  have hmain : ∀ h : ¬(vec_length v < (md : ℝ)),
      vec_length v ≠ 0 ∧
      (mkPointAndDirection point next_point md).direction.1 ^ 2 +
        (mkPointAndDirection point next_point md).direction.2 ^ 2 = 1 := by
    intro h
    have hmdR : (0 : ℝ) < (md : ℝ) := by exact_mod_cast hmd
    have hLpos : (0 : ℝ) < vec_length v := lt_of_lt_of_le hmdR (not_lt.mp h)
    have hLne : vec_length v ≠ 0 := ne_of_gt hLpos
    refine ⟨hLne, ?_⟩
    have hdir : (mkPointAndDirection point next_point md).direction =
        ((v.1 : ℝ) / vec_length v, (v.2 : ℝ) / vec_length v) := by
      rw [mkPointAndDirection]
      rw [if_neg (by rw [← hv]; exact h)]
    rw [hdir]
    have hsq : vec_length v ^ 2 = ((squared_length v : ℚ) : ℝ) := Real.sq_sqrt hsq0
    have hexp : ((v.1 : ℝ)) ^ 2 + ((v.2 : ℝ)) ^ 2 = ((squared_length v : ℚ) : ℝ) := by
      rw [squared_length]
      push_cast
      ring
    field_simp
    rw [hsq, ← hexp]
    have hv1 : v.1 = next_point.1 - point.1 := rfl
    have hv2 : v.2 = next_point.2 - point.2 := rfl
    rw [hv1, hv2]
    push_cast
    ring
  refine ⟨?_, hmain, ?_⟩
  · intro h
    rw [mkPointAndDirection]
    rw [if_pos (by rw [← hv]; exact h)]
  · by_cases h : vec_length v < (md : ℝ)
    · left
      rw [mkPointAndDirection]
      rw [if_pos (by rw [← hv]; exact h)]
    · right
      exact (hmain h).2

/-- C10, witness at the 3-4-5 segment with `min_distance = 1`. -/
theorem c10_point_and_direction_witness :
    (0 : ℚ) < 1 ∧
    (((vec_length (((3 : ℚ), (4 : ℚ)).1 - (((0 : ℚ), (0 : ℚ)) : Pt).1,
        ((3 : ℚ), (4 : ℚ)).2 - (((0 : ℚ), (0 : ℚ)) : Pt).2) < ((1 : ℚ) : ℝ)) →
      (mkPointAndDirection ((0 : ℚ), (0 : ℚ)) ((3 : ℚ), (4 : ℚ)) 1).direction = (0, 0)) ∧
    (¬(vec_length (((3 : ℚ), (4 : ℚ)).1 - (((0 : ℚ), (0 : ℚ)) : Pt).1,
        ((3 : ℚ), (4 : ℚ)).2 - (((0 : ℚ), (0 : ℚ)) : Pt).2) < ((1 : ℚ) : ℝ)) →
      vec_length (((3 : ℚ), (4 : ℚ)).1 - (((0 : ℚ), (0 : ℚ)) : Pt).1,
        ((3 : ℚ), (4 : ℚ)).2 - (((0 : ℚ), (0 : ℚ)) : Pt).2) ≠ 0 ∧
      (mkPointAndDirection ((0 : ℚ), (0 : ℚ)) ((3 : ℚ), (4 : ℚ)) 1).direction.1 ^ 2 +
        (mkPointAndDirection ((0 : ℚ), (0 : ℚ)) ((3 : ℚ), (4 : ℚ)) 1).direction.2 ^ 2 = 1) ∧
    ((mkPointAndDirection ((0 : ℚ), (0 : ℚ)) ((3 : ℚ), (4 : ℚ)) 1).direction = (0, 0) ∨
      (mkPointAndDirection ((0 : ℚ), (0 : ℚ)) ((3 : ℚ), (4 : ℚ)) 1).direction.1 ^ 2 +
        (mkPointAndDirection ((0 : ℚ), (0 : ℚ)) ((3 : ℚ), (4 : ℚ)) 1).direction.2 ^ 2 = 1)) :=
  ⟨by decide, c10_point_and_direction ((0 : ℚ), (0 : ℚ)) ((3 : ℚ), (4 : ℚ)) 1 (by decide)⟩

/-! # Claim C6: the discretizer -/

lemma num_steps2_spec (d2 s : ℚ) (hs : 0 < s) (hd : 0 ≤ d2) :
    d2 ≤ ((num_steps2 d2 s : ℚ) * s) ^ 2 ∧
      ∀ k : ℕ, k < num_steps2 d2 s → ¬(d2 ≤ ((k : ℚ) * s) ^ 2) := by
  unfold num_steps2
  rw [dif_pos ⟨hs, hd⟩]
  exact ⟨Nat.find_spec (num_steps2_exists hs hd), fun k hk => Nat.find_min _ hk⟩

lemma num_steps2_pos (d2 s : ℚ) (hs : 0 < s) (hd2 : s ^ 2 < d2) : 0 < num_steps2 d2 s := by
  have hd : 0 ≤ d2 := le_of_lt ((sq_nonneg s).trans_lt hd2)
  rcases Nat.eq_zero_or_pos (num_steps2 d2 s) with h0 | hpos
  · exfalso
    have hP := (num_steps2_spec d2 s hs hd).1
    rw [h0] at hP
    simp only [Nat.cast_zero, zero_mul] at hP
    nlinarith
  · exact hpos

/-- `num_steps2` agrees with the source's `ceil(dist / step)` where
`dist = sqrt(d2)`. -/
lemma num_steps2_eq_ceil (d2 s : ℚ) (hs : 0 < s) (hd : 0 ≤ d2) :
    num_steps2 d2 s = ⌈Real.sqrt ((d2 : ℚ) : ℝ) / ((s : ℚ) : ℝ)⌉₊ := by
  obtain ⟨hP, hmin⟩ := num_steps2_spec d2 s hs hd
  have hsR : (0 : ℝ) < (s : ℝ) := by exact_mod_cast hs
  have hdR : (0 : ℝ) ≤ (d2 : ℝ) := by exact_mod_cast hd
  apply le_antisymm
  · by_contra hcon
    push_neg at hcon
    have hk := hmin _ hcon
    have hle : Real.sqrt (d2 : ℝ) / (s : ℝ) ≤ (⌈Real.sqrt (d2 : ℝ) / (s : ℝ)⌉₊ : ℝ) :=
      Nat.le_ceil _
    have hle2 : Real.sqrt (d2 : ℝ) ≤ (⌈Real.sqrt (d2 : ℝ) / (s : ℝ)⌉₊ : ℝ) * (s : ℝ) := by
      rw [div_le_iff₀ hsR] at hle
      exact hle
    have hsq : (d2 : ℝ) ≤ ((⌈Real.sqrt (d2 : ℝ) / (s : ℝ)⌉₊ : ℝ) * (s : ℝ)) ^ 2 := by
      have h1 : Real.sqrt (d2 : ℝ) ^ 2 = (d2 : ℝ) := Real.sq_sqrt hdR
      nlinarith [Real.sqrt_nonneg ((d2 : ℚ) : ℝ)]
    have hcast : d2 ≤ ((⌈Real.sqrt (d2 : ℝ) / (s : ℝ)⌉₊ : ℚ) * s) ^ 2 := by
      exact_mod_cast hsq
    exact hk hcast
  · rw [Nat.ceil_le]
    rw [div_le_iff₀ hsR]
    have hnn : (0 : ℝ) ≤ (num_steps2 d2 s : ℝ) * (s : ℝ) := by
      positivity
    have hPR : (d2 : ℝ) ≤ ((num_steps2 d2 s : ℝ) * (s : ℝ)) ^ 2 := by
      exact_mod_cast hP
    calc Real.sqrt (d2 : ℝ) ≤ Real.sqrt (((num_steps2 d2 s : ℝ) * (s : ℝ)) ^ 2) :=
          Real.sqrt_le_sqrt hPR
      _ = (num_steps2 d2 s : ℝ) * (s : ℝ) := Real.sqrt_sq hnn

lemma point_for_step_zero (start vector : Pt) (n : ℕ) :
    point_for_step start vector n 0 = start := by
  unfold point_for_step
  have h1 : vector.1 * ((0 : ℕ) : ℚ) / n = 0 := by
    norm_num
  have h2 : vector.2 * ((0 : ℕ) : ℚ) / n = 0 := by
    norm_num
  rw [h1, h2, add_zero, add_zero]

lemma point_for_step_last (start vector : Pt) (n : ℕ) (hn : n ≠ 0) :
    point_for_step start vector n n = (start.1 + vector.1, start.2 + vector.2) := by
  unfold point_for_step
  have hnQ : ((n : ℚ)) ≠ 0 := Nat.cast_ne_zero.mpr hn
  rw [mul_div_assoc, mul_div_assoc, div_self hnQ, mul_one, mul_one]

/-- The expansion of one far-apart segment: together with its start point it
is exactly the `num_steps + 1` equally spaced sample points. -/
lemma discretize_segment_far (prev point : Pt) (s : ℚ) (hs : 0 < s)
    (h : distGT prev point s = true) :
    prev :: discretize_segment prev point s =
      (List.range (num_steps2 (squared_distance prev point) s + 1)).map
        (point_for_step prev (point.1 - prev.1, point.2 - prev.2)
          (num_steps2 (squared_distance prev point) s)) := by
  have hd2 : s ^ 2 < squared_distance prev point := by
    rcases (Bool.or_eq_true _ _).mp h with h' | h'
    · exact absurd (of_decide_eq_true h') (not_lt.mpr (le_of_lt hs))
    · exact of_decide_eq_true h'
  set n := num_steps2 (squared_distance prev point) s with hn
  have hnpos : 0 < n := num_steps2_pos _ _ hs hd2
  obtain ⟨m, hm⟩ : ∃ m, n = m + 1 := ⟨n - 1, by omega⟩
  rw [discretize_segment, if_pos h, ← hn, hm]
  simp only [Nat.add_sub_cancel]
  rw [List.range_eq_range', List.range'_succ, List.range'_concat, List.map_cons,
    List.map_append, List.map_singleton, point_for_step_zero]
  have hlast : point_for_step prev (point.1 - prev.1, point.2 - prev.2) (m + 1)
      (0 + 1 + 1 * m) = point := by
    have hidx : 0 + 1 + 1 * m = m + 1 := by omega
    rw [hidx, point_for_step_last _ _ _ (Nat.succ_ne_zero m)]
    simp
  rw [hlast]

lemma discretize_segment_far_length (prev point : Pt) (s : ℚ) (hs : 0 < s)
    (h : distGT prev point s = true) :
    (discretize_segment prev point s).length =
      num_steps2 (squared_distance prev point) s := by
  have := congrArg List.length (discretize_segment_far prev point s hs h)
  simp only [List.length_cons, List.length_map, List.length_range] at this
  omega

lemma squared_distance_point_for_step (prev point : Pt) (n : ℕ) (hn : n ≠ 0) (i : ℕ) :
    squared_distance
        (point_for_step prev (point.1 - prev.1, point.2 - prev.2) n i)
        (point_for_step prev (point.1 - prev.1, point.2 - prev.2) n (i + 1)) =
      squared_distance prev point / (n : ℚ) ^ 2 := by
  have hnQ : ((n : ℚ)) ≠ 0 := Nat.cast_ne_zero.mpr hn
  unfold point_for_step squared_distance squared_length
  push_cast
  field_simp
  ring

/-- Each sub-segment of a far-apart pair has real length `D / n`. -/
lemma point_for_step_dist (prev point : Pt) (n : ℕ) (hn : n ≠ 0) (i : ℕ) :
    distR (point_for_step prev (point.1 - prev.1, point.2 - prev.2) n i)
        (point_for_step prev (point.1 - prev.1, point.2 - prev.2) n (i + 1)) =
      distR prev point / (n : ℝ) := by
  unfold distR
  rw [squared_distance_point_for_step prev point n hn i]
  have hd : (0 : ℝ) ≤ ((squared_distance prev point : ℚ) : ℝ) := by
    exact_mod_cast squared_distance_nonneg prev point
  have hcast : (((squared_distance prev point / (n : ℚ) ^ 2) : ℚ) : ℝ) =
      ((squared_distance prev point : ℚ) : ℝ) / ((n : ℝ)) ^ 2 := by
    push_cast
    ring
  rw [hcast, Real.sqrt_div hd]
  congr 1
  rw [Real.sqrt_sq (by positivity)]

/-- C6: with the infinite step (`none`) or fewer than two points the path is
unchanged; otherwise the output is the first point followed by the
per-consecutive-pair expansions, where a pair at distance `D ≤ S` stays a
single segment and a pair at distance `D > S` becomes exactly
`n = ceil(D/S)` sub-segments with equally spaced sample points, each of real
length `D/n`, summing to `D` (no shorter trailing remainder). -/
theorem c6_discretize_path (path : List Pt) (s : ℚ) (hs : 0 < s) :
    discretize_path path none = path ∧
    (path.length < 2 → discretize_path path (some s) = path) ∧
    (∀ p rest, path = p :: rest →
      discretize_path (p :: rest) (some s) =
        p :: ((List.zip (p :: rest) rest).map
          (fun q => discretize_segment q.1 q.2 s)).flatten) ∧
    (∀ prev point : Pt, distGT prev point s = false →
      discretize_segment prev point s = [point]) ∧
    (∀ prev point : Pt, distGT prev point s = true →
      num_steps2 (squared_distance prev point) s = ⌈distR prev point / (s : ℝ)⌉₊ ∧
      (discretize_segment prev point s).length =
        num_steps2 (squared_distance prev point) s ∧
      prev :: discretize_segment prev point s =
        (List.range (num_steps2 (squared_distance prev point) s + 1)).map
          (point_for_step prev (point.1 - prev.1, point.2 - prev.2)
            (num_steps2 (squared_distance prev point) s)) ∧
      (∀ i : ℕ,
        distR (point_for_step prev (point.1 - prev.1, point.2 - prev.2)
            (num_steps2 (squared_distance prev point) s) i)
          (point_for_step prev (point.1 - prev.1, point.2 - prev.2)
            (num_steps2 (squared_distance prev point) s) (i + 1)) =
          distR prev point / (num_steps2 (squared_distance prev point) s : ℝ)) ∧
      ((List.range (num_steps2 (squared_distance prev point) s)).map
        (fun i => distR (point_for_step prev (point.1 - prev.1, point.2 - prev.2)
            (num_steps2 (squared_distance prev point) s) i)
          (point_for_step prev (point.1 - prev.1, point.2 - prev.2)
            (num_steps2 (squared_distance prev point) s) (i + 1)))).sum =
        distR prev point) := by
  refine ⟨rfl, ?_, ?_, ?_, ?_⟩
  · intro hlen
    cases path with
    | nil => rfl
    | cons p rest =>
      cases rest with
      | nil => rfl
      | cons a b =>
        exfalso
        simp only [List.length_cons] at hlen
        omega
  · intro p rest hpath
    have hgo : ∀ (l : List Pt) (prev : Pt), discretize_go s prev l =
        ((List.zip (prev :: l) l).map (fun q => discretize_segment q.1 q.2 s)).flatten := by
      intro l
      induction l with
      | nil => intro prev; rfl
      | cons q t ih =>
        intro prev
        rw [discretize_go, List.zip_cons_cons, List.map_cons, List.flatten_cons, ih q]
    cases rest with
    | nil => rfl
    | cons a b =>
      have hlen : ¬((p :: a :: b).length < 2) := by
        simp only [List.length_cons]
        omega
      rw [show discretize_path (p :: a :: b) (some s) =
          (if (p :: a :: b).length < 2 then p :: a :: b
            else p :: discretize_go s p (a :: b)) from rfl,
        if_neg hlen, hgo (a :: b) p]
  · intro prev point h
    rw [discretize_segment, if_neg (by simp [h])]
  · intro prev point h
    have hd2 : s ^ 2 < squared_distance prev point := by
      rcases (Bool.or_eq_true _ _).mp h with h' | h'
      · exact absurd (of_decide_eq_true h') (not_lt.mpr (le_of_lt hs))
      · exact of_decide_eq_true h'
    have hd0 : 0 ≤ squared_distance prev point := squared_distance_nonneg _ _
    have hnpos : 0 < num_steps2 (squared_distance prev point) s :=
      num_steps2_pos _ _ hs hd2
    have hnne : num_steps2 (squared_distance prev point) s ≠ 0 := Nat.pos_iff_ne_zero.mp hnpos
    refine ⟨?_, discretize_segment_far_length prev point s hs h,
      discretize_segment_far prev point s hs h,
      fun i => point_for_step_dist prev point _ hnne i, ?_⟩
    · rw [num_steps2_eq_ceil _ _ hs hd0]
      rfl
    · set n := num_steps2 (squared_distance prev point) s with hn
      have hmap : (List.range n).map
          (fun i => distR (point_for_step prev (point.1 - prev.1, point.2 - prev.2) n i)
            (point_for_step prev (point.1 - prev.1, point.2 - prev.2) n (i + 1))) =
          List.replicate n (distR prev point / (n : ℝ)) := by
        rw [List.map_congr_left (fun i _ => point_for_step_dist prev point n hnne i)]
        rw [List.map_const', List.length_range]
      rw [hmap, List.sum_replicate, nsmul_eq_mul]
      have hnR : ((n : ℝ)) ≠ 0 := Nat.cast_ne_zero.mpr hnne
      field_simp

/-- C6, witness: the segment from `(0,0)` to `(5,0)` with step `2`. -/
theorem c6_discretize_path_witness :
    (0 : ℚ) < 2 ∧
    discretize_path [((0 : ℚ), (0 : ℚ)), ((5 : ℚ), (0 : ℚ))] none =
      [((0 : ℚ), (0 : ℚ)), ((5 : ℚ), (0 : ℚ))] :=
  ⟨by decide, (c6_discretize_path [((0 : ℚ), (0 : ℚ)), ((5 : ℚ), (0 : ℚ))] 2 (by decide)).1⟩

/-! # Claim C5: the joiner's nearest-path selection -/

lemma ppsd_go_spec (point : Pt) (rest : List Pt) : ∀ (bd : ℚ) (bi idx : ℕ),
    (ppsd_go point bd bi idx rest = (bd, bi) ∧
      ∀ k < rest.length, bd ≤ squared_distance point (rest.getD k (0, 0)))
    ∨ (∃ k < rest.length,
        (ppsd_go point bd bi idx rest).1 = squared_distance point (rest.getD k (0, 0)) ∧
        (ppsd_go point bd bi idx rest).2 = idx + k ∧
        (ppsd_go point bd bi idx rest).1 < bd ∧
        (∀ k' < rest.length,
          (ppsd_go point bd bi idx rest).1 ≤ squared_distance point (rest.getD k' (0, 0))) ∧
        (∀ k' < k,
          (ppsd_go point bd bi idx rest).1 < squared_distance point (rest.getD k' (0, 0)))) := by
  induction rest with
  | nil =>
    intro bd bi idx
    left
    exact ⟨rfl, fun k hk => absurd hk (by simp)⟩
  | cons p t ih =>
    intro bd bi idx
    by_cases hc : squared_distance point p < bd
    · rw [ppsd_go, if_pos hc]
      rcases ih (squared_distance point p) idx (idx + 1) with ⟨heq, hmin⟩ | ⟨k, hk, h1, h2, h3, h4, h5⟩
      · right
        refine ⟨0, by simp, ?_, ?_, ?_, ?_, ?_⟩
        · rw [heq]
          simp
        · rw [heq]
          simp
        · rw [heq]
          simpa using hc
        · intro k' hk'
          rw [heq]
          cases k' with
          | zero => simp
          | succ j =>
            simpa using hmin j (by simpa using hk')
        · intro k' hk'
          omega
      · right
        refine ⟨k + 1, by simpa using hk, ?_, ?_, ?_, ?_, ?_⟩
        · simpa using h1
        · rw [h2]
          omega
        · exact lt_trans h3 hc
        · intro k' hk'
          cases k' with
          | zero => simpa using le_of_lt h3
          | succ j =>
            simpa using h4 j (by simpa using hk')
        · intro k' hk'
          cases k' with
          | zero => simpa using h3
          | succ j =>
            simpa using h5 j (by omega)
    · rw [ppsd_go, if_neg hc]
      rcases ih bd bi (idx + 1) with ⟨heq, hmin⟩ | ⟨k, hk, h1, h2, h3, h4, h5⟩
      · left
        refine ⟨heq, ?_⟩
        intro k hk
        cases k with
        | zero => simpa using not_lt.mp hc
        | succ j =>
          simpa using hmin j (by simpa using hk)
      · right
        refine ⟨k + 1, by simpa using hk, ?_, ?_, ?_, ?_, ?_⟩
        · simpa using h1
        · rw [h2]
          omega
        · exact h3
        · intro k' hk'
          cases k' with
          | zero => simpa using le_of_lt (lt_of_lt_of_le h3 (not_lt.mp hc))
          | succ j =>
            simpa using h4 j (by simpa using hk')
        · intro k' hk'
          cases k' with
          | zero => simpa using lt_of_lt_of_le h3 (not_lt.mp hc)
          | succ j =>
            simpa using h5 j (by omega)

lemma point_path_squared_distance_spec (point : Pt) (path : List Pt) (hpath : path ≠ []) :
    IsNearest point path (point_path_squared_distance point path).1
      (point_path_squared_distance point path).2 := by
  cases path with
  | nil => exact absurd rfl hpath
  | cons p0 rest =>
    rw [point_path_squared_distance]
    rcases ppsd_go_spec point rest (squared_distance point p0) 0 1 with
      ⟨heq, hmin⟩ | ⟨k, hk, h1, h2, h3, h4, h5⟩
    · rw [heq]
      refine ⟨by simp, by simp, ?_, ?_⟩
      · intro k hk
        cases k with
        | zero => simp
        | succ j =>
          simp only [List.getD_cons_succ]
          exact hmin j (by simpa using hk)
      · intro k hk
        omega
    · have h2' : (ppsd_go point (squared_distance point p0) 0 1 rest).2 = k + 1 := by
        omega
      refine ⟨?_, ?_, ?_, ?_⟩
      · rw [h2']
        simpa using hk
      · rw [h2']
        simpa using h1
      · intro k' hk'
        cases k' with
        | zero => simpa using le_of_lt h3
        | succ j =>
          simpa using h4 j (by simpa using hk')
      · intro k' hk'
        rw [h2'] at hk'
        cases k' with
        | zero => simpa using h3
        | succ j =>
          simpa using h5 j (by omega)

lemma cpd_go_spec (path2 : List Pt) (rest : List Pt) : ∀ (bd : ℚ) (b1 b2 idx : ℕ),
    (cpd_go path2 bd b1 b2 idx rest = (bd, b1, b2) ∧
      ∀ k < rest.length,
        bd ≤ (point_path_squared_distance (rest.getD k (0, 0)) path2).1)
    ∨ (∃ k < rest.length,
        (cpd_go path2 bd b1 b2 idx rest).1 =
          (point_path_squared_distance (rest.getD k (0, 0)) path2).1 ∧
        (cpd_go path2 bd b1 b2 idx rest).2.1 = idx + k ∧
        (cpd_go path2 bd b1 b2 idx rest).2.2 =
          (point_path_squared_distance (rest.getD k (0, 0)) path2).2 ∧
        (cpd_go path2 bd b1 b2 idx rest).1 < bd ∧
        (∀ k' < rest.length,
          (cpd_go path2 bd b1 b2 idx rest).1 ≤
            (point_path_squared_distance (rest.getD k' (0, 0)) path2).1) ∧
        (∀ k' < k,
          (cpd_go path2 bd b1 b2 idx rest).1 <
            (point_path_squared_distance (rest.getD k' (0, 0)) path2).1)) := by
  induction rest with
  | nil =>
    intro bd b1 b2 idx
    left
    exact ⟨rfl, fun k hk => absurd hk (by simp)⟩
  | cons p t ih =>
    intro bd b1 b2 idx
    by_cases hc : (point_path_squared_distance p path2).1 < bd
    · rw [cpd_go, if_pos hc]
      rcases ih (point_path_squared_distance p path2).1 idx
          (point_path_squared_distance p path2).2 (idx + 1) with
        ⟨heq, hmin⟩ | ⟨k, hk, h1, h2, h3, h4, h5, h6⟩
      · right
        refine ⟨0, by simp, ?_, ?_, ?_, ?_, ?_, ?_⟩
        · rw [heq]
          simp
        · rw [heq]
          simp
        · rw [heq]
          simp
        · rw [heq]
          simpa using hc
        · intro k' hk'
          rw [heq]
          cases k' with
          | zero => simp
          | succ j =>
            simpa using hmin j (by simpa using hk')
        · intro k' hk'
          omega
      · right
        refine ⟨k + 1, by simpa using hk, ?_, ?_, ?_, ?_, ?_, ?_⟩
        · simpa using h1
        · rw [h2]
          omega
        · simpa using h3
        · exact lt_trans h4 hc
        · intro k' hk'
          cases k' with
          | zero => simpa using le_of_lt h4
          | succ j =>
            simpa using h5 j (by simpa using hk')
        · intro k' hk'
          cases k' with
          | zero => simpa using h4
          | succ j =>
            simpa using h6 j (by omega)
    · rw [cpd_go, if_neg hc]
      rcases ih bd b1 b2 (idx + 1) with ⟨heq, hmin⟩ | ⟨k, hk, h1, h2, h3, h4, h5, h6⟩
      · left
        refine ⟨heq, ?_⟩
        intro k hk
        cases k with
        | zero => simpa using not_lt.mp hc
        | succ j =>
          simpa using hmin j (by simpa using hk)
      · right
        refine ⟨k + 1, by simpa using hk, ?_, ?_, ?_, ?_, ?_, ?_⟩
        · simpa using h1
        · rw [h2]
          omega
        · simpa using h3
        · exact h4
        · intro k' hk'
          cases k' with
          | zero => simpa using le_of_lt (lt_of_lt_of_le h4 (not_lt.mp hc))
          | succ j =>
            simpa using h5 j (by simpa using hk')
        · intro k' hk'
          cases k' with
          | zero => simpa using lt_of_lt_of_le h4 (not_lt.mp hc)
          | succ j =>
            simpa using h6 j (by omega)

lemma compute_paths_distance_spec (path1 path2 : List Pt)
    (h1 : path1 ≠ []) (h2 : path2 ≠ []) :
    IsNearestPair path1 path2 (compute_paths_distance path1 path2).1
      (compute_paths_distance path1 path2).2.1 (compute_paths_distance path1 path2).2.2 := by
  cases path1 with
  | nil => exact absurd rfl h1
  | cons p0 rest =>
    have hF : ∀ q : Pt, IsNearest q path2 (point_path_squared_distance q path2).1
        (point_path_squared_distance q path2).2 :=
      fun q => point_path_squared_distance_spec q path2 h2
    have hFmin : ∀ (q : Pt) (b : ℕ), b < path2.length →
        (point_path_squared_distance q path2).1 ≤ squared_distance q (path2.getD b (0, 0)) :=
      fun q b hb => (hF q).2.2.1 b hb
    rw [compute_paths_distance]
    rcases cpd_go_spec path2 rest (point_path_squared_distance p0 path2).1 0
        (point_path_squared_distance p0 path2).2 1 with
      ⟨heq, hmin⟩ | ⟨k, hk, h1', h2', h3', h4', h5', h6'⟩
    · rw [heq]
      refine ⟨by simp, by simpa using hF p0, ?_, ?_⟩
      · intro a ha b hb
        cases a with
        | zero =>
          simpa using hFmin p0 b hb
        | succ j =>
          simp only [List.getD_cons_succ]
          calc (point_path_squared_distance p0 path2).1
              ≤ (point_path_squared_distance (rest.getD j (0, 0)) path2).1 :=
                hmin j (by simpa using ha)
            _ ≤ squared_distance (rest.getD j (0, 0)) (path2.getD b (0, 0)) :=
                hFmin _ b hb
      · intro a ha b hb
        simp at ha
    · have h2'' : (cpd_go path2 (point_path_squared_distance p0 path2).1 0
          (point_path_squared_distance p0 path2).2 1 rest).2.1 = k + 1 := by
        omega
      refine ⟨?_, ?_, ?_, ?_⟩
      · rw [h2'']
        simpa using hk
      · rw [h2'', h3']
        have := hF (rest.getD k (0, 0))
        rw [← h1'] at this
        simpa using this
      · intro a ha b hb
        cases a with
        | zero =>
          calc (cpd_go path2 (point_path_squared_distance p0 path2).1 0
                (point_path_squared_distance p0 path2).2 1 rest).1
              ≤ (point_path_squared_distance p0 path2).1 := le_of_lt h4'
            _ ≤ squared_distance p0 (path2.getD b (0, 0)) := hFmin p0 b hb

        | succ j =>
          simp only [List.getD_cons_succ]
          calc (cpd_go path2 (point_path_squared_distance p0 path2).1 0
                (point_path_squared_distance p0 path2).2 1 rest).1
              ≤ (point_path_squared_distance (rest.getD j (0, 0)) path2).1 :=
                h5' j (by simpa using ha)
            _ ≤ squared_distance (rest.getD j (0, 0)) (path2.getD b (0, 0)) :=
                hFmin _ b hb
      · intro a ha b hb
        rw [h2''] at ha
        cases a with
        | zero =>
          calc (cpd_go path2 (point_path_squared_distance p0 path2).1 0
                (point_path_squared_distance p0 path2).2 1 rest).1
              < (point_path_squared_distance p0 path2).1 := h4'
            _ ≤ squared_distance p0 (path2.getD b (0, 0)) := hFmin p0 b hb

        | succ j =>
          simp only [List.getD_cons_succ]
          calc (cpd_go path2 (point_path_squared_distance p0 path2).1 0
                (point_path_squared_distance p0 path2).2 1 rest).1
              < (point_path_squared_distance (rest.getD j (0, 0)) path2).1 :=
                h6' j (by omega)
            _ ≤ squared_distance (rest.getD j (0, 0)) (path2.getD b (0, 0)) :=
                hFmin _ b hb

lemma extract_go_spec (working : List Pt) (rest : List (List Pt)) :
    ∀ (bd : ℚ) (bj b1 b2 jdx : ℕ),
    (extract_go working bd bj b1 b2 jdx rest = (bd, bj, b1, b2) ∧
      ∀ k < rest.length,
        bd ≤ (compute_paths_distance working (rest.getD k [])).1)
    ∨ (∃ k < rest.length,
        (extract_go working bd bj b1 b2 jdx rest).1 =
          (compute_paths_distance working (rest.getD k [])).1 ∧
        (extract_go working bd bj b1 b2 jdx rest).2.1 = jdx + k ∧
        (extract_go working bd bj b1 b2 jdx rest).2.2.1 =
          (compute_paths_distance working (rest.getD k [])).2.1 ∧
        (extract_go working bd bj b1 b2 jdx rest).2.2.2 =
          (compute_paths_distance working (rest.getD k [])).2.2 ∧
        (extract_go working bd bj b1 b2 jdx rest).1 < bd ∧
        (∀ k' < rest.length,
          (extract_go working bd bj b1 b2 jdx rest).1 ≤
            (compute_paths_distance working (rest.getD k' [])).1) ∧
        (∀ k' < k,
          (extract_go working bd bj b1 b2 jdx rest).1 <
            (compute_paths_distance working (rest.getD k' [])).1)) := by
  induction rest with
  | nil =>
    intro bd bj b1 b2 jdx
    left
    exact ⟨rfl, fun k hk => absurd hk (by simp)⟩
  | cons p t ih =>
    intro bd bj b1 b2 jdx
    by_cases hc : (compute_paths_distance working p).1 < bd
    · rw [extract_go, if_pos hc]
      rcases ih (compute_paths_distance working p).1 jdx
          (compute_paths_distance working p).2.1 (compute_paths_distance working p).2.2
          (jdx + 1) with
        ⟨heq, hmin⟩ | ⟨k, hk, h1, h2, h3, h4, h5, h6, h7⟩
      · right
        refine ⟨0, by simp, ?_, ?_, ?_, ?_, ?_, ?_, ?_⟩
        · rw [heq]
          simp
        · rw [heq]
          simp
        · rw [heq]
          simp
        · rw [heq]
          simp
        · rw [heq]
          simpa using hc
        · intro k' hk'
          rw [heq]
          cases k' with
          | zero => simp
          | succ j =>
            simpa using hmin j (by simpa using hk')
        · intro k' hk'
          omega
      · right
        refine ⟨k + 1, by simpa using hk, ?_, ?_, ?_, ?_, ?_, ?_, ?_⟩
        · simpa using h1
        · rw [h2]
          omega
        · simpa using h3
        · simpa using h4
        · exact lt_trans h5 hc
        · intro k' hk'
          cases k' with
          | zero => simpa using le_of_lt h5
          | succ j =>
            simpa using h6 j (by simpa using hk')
        · intro k' hk'
          cases k' with
          | zero => simpa using h5
          | succ j =>
            simpa using h7 j (by omega)
    · rw [extract_go, if_neg hc]
      rcases ih bd bj b1 b2 (jdx + 1) with ⟨heq, hmin⟩ | ⟨k, hk, h1, h2, h3, h4, h5, h6, h7⟩
      · left
        refine ⟨heq, ?_⟩
        intro k hk
        cases k with
        | zero => simpa using not_lt.mp hc
        | succ j =>
          simpa using hmin j (by simpa using hk)
      · right
        refine ⟨k + 1, by simpa using hk, ?_, ?_, ?_, ?_, ?_, ?_, ?_⟩
        · simpa using h1
        · rw [h2]
          omega
        · simpa using h3
        · simpa using h4
        · exact h5
        · intro k' hk'
          cases k' with
          | zero => simpa using le_of_lt (lt_of_lt_of_le h5 (not_lt.mp hc))
          | succ j =>
            simpa using h6 j (by simpa using hk')
        · intro k' hk'
          cases k' with
          | zero => simpa using lt_of_lt_of_le h5 (not_lt.mp hc)
          | succ j =>
            simpa using h7 j (by omega)

/-- What `extract_nearest_path` returns on a nonempty pool: the entry at the
optimal pool index `j` (earliest among global minimisers), its nearest-pair
indices, and the pool with entry `j` removed. -/
lemma extract_nearest_path_spec (working : List Pt) (remaining : List (List Pt))
    (hr : remaining ≠ []) :
    ∃ d j i1 i2,
      extract_nearest_path working remaining =
        some (remaining.getD j [], i1, i2, remaining.eraseIdx j) ∧
      IsNearestPool working remaining d j i1 i2 := by
  cases remaining with
  | nil => exact absurd rfl hr
  | cons r0 rest =>
    rw [extract_nearest_path]
    rcases extract_go_spec working rest (compute_paths_distance working r0).1 0
        (compute_paths_distance working r0).2.1 (compute_paths_distance working r0).2.2 1 with
      ⟨heq, hmin⟩ | ⟨k, hk, h1, h2, h3, h4, h5, h6, h7⟩
    · refine ⟨(compute_paths_distance working r0).1, 0,
        (compute_paths_distance working r0).2.1, (compute_paths_distance working r0).2.2,
        ?_, ?_, ?_, ?_, ?_⟩
      · rw [heq]
      · simp
      · simp
      · intro k hk
        cases k with
        | zero => simp
        | succ j =>
          simpa using hmin j (by simpa using hk)
      · intro k hk
        omega
    · set r := extract_go working (compute_paths_distance working r0).1 0
        (compute_paths_distance working r0).2.1 (compute_paths_distance working r0).2.2 1 rest
        with hrdef
      have h2' : r.2.1 = k + 1 := by
        omega
      refine ⟨r.1, k + 1, r.2.2.1, r.2.2.2, ?_, ?_, ?_, ?_, ?_⟩
      · rw [h2']
      · simpa using hk
      · simp only [List.getD_cons_succ]
        rw [h1, h3, h4]
      · intro k' hk'
        cases k' with
        | zero => simpa using le_of_lt h5
        | succ j =>
          simpa using h6 j (by simpa using hk')
      · intro k' hk'
        cases k' with
        | zero => simpa using h5
        | succ j =>
          simpa using h7 j (by omega)

lemma getD_mem_of_lt {α : Type} (l : List α) (n : ℕ) (d : α) (h : n < l.length) :
    l.getD n d ∈ l := by
  rw [List.getD_eq_getElem l d h]
  exact List.getElem_mem h

/-- C5: on a nonempty pool of nonempty pending paths and a nonempty working
path, `extract_nearest_path` removes and returns the pending path whose
nearest point-pair squared distance to the working path is globally minimal,
with ties broken by earliest pool index, then earliest working-path point
index, then earliest candidate point index. -/
theorem c5_extract_nearest_path (working : List Pt) (remaining : List (List Pt))
    (hw : working ≠ []) (hne : ∀ p ∈ remaining, p ≠ []) (hr : remaining ≠ []) :
    ∃ j i1 i2,
      extract_nearest_path working remaining =
        some (remaining.getD j [], i1, i2, remaining.eraseIdx j) ∧
      SelectionOptimal working remaining j i1 i2 := by
  obtain ⟨d, j, i1, i2, hsome, hj, heq, hmin, hstrict⟩ :=
    extract_nearest_path_spec working remaining hr
  have hcand_ne : remaining.getD j [] ≠ [] := hne _ (getD_mem_of_lt remaining j [] hj)
  have hpair := compute_paths_distance_spec working (remaining.getD j []) hw hcand_ne
  have hd : (compute_paths_distance working (remaining.getD j [])).1 = d := by
    rw [← heq]
  have hi1 : (compute_paths_distance working (remaining.getD j [])).2.1 = i1 := by
    rw [← heq]
  have hi2 : (compute_paths_distance working (remaining.getD j [])).2.2 = i2 := by
    rw [← heq]
  rw [hd, hi1, hi2] at hpair
  obtain ⟨hi1lt, hnear, hpairmin, hpairstrict⟩ := hpair
  obtain ⟨hi2lt, hdval, hnmin, hnstrict⟩ := hnear
  refine ⟨j, i1, i2, hsome, hj, hi1lt, hi2lt, ?_⟩
  intro j' hj' a ha b hb
  have hcand'_ne : remaining.getD j' [] ≠ [] := hne _ (getD_mem_of_lt remaining j' [] hj')
  have hpair' := compute_paths_distance_spec working (remaining.getD j' []) hw hcand'_ne
  have hle : d ≤ squared_distance (working.getD a (0, 0))
      ((remaining.getD j' []).getD b (0, 0)) :=
    le_trans (hmin j' hj') (hpair'.2.2.1 a ha b hb)
  rcases lt_or_eq_of_le hle with hlt | heq2
  · left
    rw [← hdval]
    exact hlt
  · right
    refine ⟨by rw [← hdval, heq2], ?_⟩
    by_cases hjj : j' < j
    · exfalso
      have hcontra := lt_of_lt_of_le (hstrict j' hjj) (hpair'.2.2.1 a ha b hb)
      rw [← heq2] at hcontra
      exact lt_irrefl d hcontra
    · have hjge : j ≤ j' := not_lt.mp hjj
      rcases eq_or_lt_of_le hjge with heqj | hltj
      · subst heqj
        by_cases haa : a < i1
        · exfalso
          have hcontra := hpairstrict a haa b hb
          rw [← heq2] at hcontra
          exact lt_irrefl d hcontra
        · have hage : i1 ≤ a := not_lt.mp haa
          rcases eq_or_lt_of_le hage with heqa | hlta
          · subst heqa
            by_cases hbb : b < i2
            · exfalso
              have hcontra := hnstrict b hbb
              rw [← heq2] at hcontra
              exact lt_irrefl d hcontra
            · exact Or.inr ⟨rfl, Or.inr ⟨rfl, not_lt.mp hbb⟩⟩
          · exact Or.inr ⟨rfl, Or.inl hlta⟩
      · exact Or.inl hltj

/-- C5, witness: a concrete two-pool extraction. -/
theorem c5_extract_nearest_path_witness :
    ([((0 : ℚ), (0 : ℚ)), ((1 : ℚ), (0 : ℚ))] : List Pt) ≠ [] ∧
    (∀ p ∈ ([[((5 : ℚ), (0 : ℚ))], [((2 : ℚ), (0 : ℚ))]] : List (List Pt)), p ≠ []) ∧
    ([[((5 : ℚ), (0 : ℚ))], [((2 : ℚ), (0 : ℚ))]] : List (List Pt)) ≠ [] ∧
    (∃ j i1 i2,
      extract_nearest_path [((0 : ℚ), (0 : ℚ)), ((1 : ℚ), (0 : ℚ))]
          [[((5 : ℚ), (0 : ℚ))], [((2 : ℚ), (0 : ℚ))]] =
        some (([[((5 : ℚ), (0 : ℚ))], [((2 : ℚ), (0 : ℚ))]] : List (List Pt)).getD j [], i1, i2,
          ([[((5 : ℚ), (0 : ℚ))], [((2 : ℚ), (0 : ℚ))]] : List (List Pt)).eraseIdx j) ∧
      SelectionOptimal [((0 : ℚ), (0 : ℚ)), ((1 : ℚ), (0 : ℚ))]
        [[((5 : ℚ), (0 : ℚ))], [((2 : ℚ), (0 : ℚ))]] j i1 i2) :=
  ⟨by simp, by simp, by simp,
    c5_extract_nearest_path _ _ (by simp) (by simp) (by simp)⟩

/-! # Claim C2: the path union -/

lemma coe_cons_ms {α : Type} (y : α) (l : List α) :
    (↑(y :: l) : Multiset α) = {y} + ↑l := by
  rw [Multiset.singleton_add, Multiset.cons_coe]

lemma coe_eraseIdx_getD {α : Type} (l : List α) (j : ℕ) (d : α) (h : j < l.length) :
    (↑l : Multiset α) = ↑(l.eraseIdx j) + {l.getD j d} := by
  rw [List.eraseIdx_eq_take_drop_succ]
  conv_lhs => rw [← List.take_append_drop j l]
  rw [List.drop_eq_getElem_cons h, List.getD_eq_getElem l d h]
  rw [← Multiset.coe_add, ← Multiset.coe_add, coe_cons_ms]
  abel

lemma getD_length_sub_one {α : Type} [Inhabited α] (l : List α) (h : l ≠ []) (d : α) :
    l.getD (l.length - 1) d = l.getLastI := by
  have hlen : l.length - 1 < l.length := by
    have := List.length_pos.mpr h
    omega
  rw [List.getD_eq_getElem l d hlen, List.getLastI_eq_getLast?, List.getLast?_eq_getLast l h,
    List.getLast_eq_getElem]

lemma getLastI_append_of_ne_nil {α : Type} [Inhabited α] (l1 : List α) {l2 : List α}
    (h : l2 ≠ []) : (l1 ++ l2).getLastI = l2.getLastI := by
  rw [List.getLastI_eq_getLast?, List.getLastI_eq_getLast?, List.getLast?_append,
    List.getLast?_eq_getLast l2 h]
  rfl

lemma rotate_closed_path_length (p : List Pt) (ns : ℕ) :
    (rotate_closed_path p ns).length = p.length := by
  by_cases hp : p = []
  · rw [hp]
    rfl
  · rw [rotate_closed_path, if_neg hp]
    by_cases hc : ns = 0 ∨ p.length - 1 ≤ ns
    · rw [if_pos hc]
    · rw [if_neg hc]
      push_neg at hc
      have hpos : 0 < p.length := List.length_pos.mpr hp
      simp only [List.length_append, List.length_drop, List.length_take]
      omega

/-- Decomposition of a middle-index rotation (shared by C2 and C7 facts):
for `0 < ns < L - 1` the path splits as `a :: (u ++ x :: v)` with `x` at
index `ns` and the rotation equal to `(x :: v) ++ (u ++ [x])`. -/
lemma rotate_middle_full (p : List Pt) (ns : ℕ) (h0 : 0 < ns) (h1 : ns < p.length - 1) :
    ∃ (a x : Pt) (u v : List Pt), v ≠ [] ∧ ns = u.length + 1 ∧ p = a :: (u ++ x :: v) ∧
      p.getD ns ((0 : ℚ), (0 : ℚ)) = x ∧
      rotate_closed_path p ns = (x :: v) ++ (u ++ [x]) := by
  cases p with
  | nil => simp at h1
  | cons a t =>
    obtain ⟨k, rfl⟩ : ∃ k, ns = k + 1 := ⟨ns - 1, by omega⟩
    have hkt : k + 1 < t.length := by
      simpa using h1
    have hkk : k < t.length := by omega
    refine ⟨a, t.get ⟨k, hkk⟩, t.take k, t.drop (k + 1), ?_, ?_, ?_, ?_, ?_⟩
    · have hlen : (t.drop (k + 1)).length = t.length - (k + 1) := List.length_drop _ _
      intro hnil
      rw [hnil] at hlen
      simp at hlen
      omega
    · simp only [List.length_take]
      omega
    · congr 1
      conv_lhs => rw [← List.take_append_drop k t]
      congr 1
      rw [List.drop_eq_getElem_cons hkk]
      rfl
    · rw [List.getD_cons_succ, List.getD_eq_getElem _ _ hkk]
      rfl
    · have hteq : t = t.take k ++ t.get ⟨k, hkk⟩ :: t.drop (k + 1) := by
        conv_lhs => rw [← List.take_append_drop k t]
        congr 1
        rw [List.drop_eq_getElem_cons hkk]
        rfl
      have hulen : (t.take k).length = k := by
        simp only [List.length_take]
        omega
      have hvne : t.drop (k + 1) ≠ [] := by
        have hlen : (t.drop (k + 1)).length = t.length - (k + 1) := List.length_drop _ _
        intro hnil
        rw [hnil] at hlen
        simp at hlen
        omega
      have := rotate_closed_path_decomp a (t.get ⟨k, hkk⟩) (t.take k) (t.drop (k + 1)) hvne
      rw [hulen] at this
      rw [show (a :: t : List Pt) = a :: (t.take k ++ t.get ⟨k, hkk⟩ :: t.drop (k + 1)) by
        rw [← hteq]]
      exact this

/-- The multiset of a rotated closed path: one copy of the old closure
point is traded for an extra copy of the new start point. -/
lemma rotate_closed_path_multiset (p : List Pt) (ns : ℕ) (hns : ns < p.length)
    (hclosed : p.headI = p.getLastI) :
    (↑(rotate_closed_path p ns) : Multiset Pt) + {p.headI} =
      ↑p + {p.getD ns ((0 : ℚ), (0 : ℚ))} := by
  have hp : p ≠ [] := by
    intro h
    rw [h] at hns
    simp at hns
  by_cases h0 : ns = 0
  · subst h0
    rw [rotate_closed_path_zero]
    have hhead : p.getD 0 ((0 : ℚ), (0 : ℚ)) = p.headI := by
      cases p with
      | nil => exact absurd rfl hp
      | cons q t => simp
    rw [hhead]
  · by_cases h1 : p.length - 1 ≤ ns
    · rw [rotate_closed_path_high p ns h1]
      have hns_eq : ns = p.length - 1 := by omega
      rw [hns_eq, getD_length_sub_one p hp, ← hclosed]
    · push_neg at h1
      obtain ⟨a, x, u, v, hv, hnseq, hpeq, hgetD, hrot⟩ :=
        rotate_middle_full p ns (Nat.pos_of_ne_zero h0) h1
    -- now the multiset algebra over the decomposition
      rw [hrot, hgetD, hpeq, List.headI_cons]
      have e1 : (↑((x :: v) ++ (u ++ [x])) : Multiset Pt) = ({x} + ↑v) + (↑u + {x}) :=
        calc (↑((x :: v) ++ (u ++ [x])) : Multiset Pt)
            = ↑(x :: v) + ↑(u ++ [x]) := (Multiset.coe_add _ _).symm
          _ = ({x} + ↑v) + (↑u + {x}) := by
              rw [coe_cons_ms]
              congr 1
      have e2 : (↑(a :: (u ++ x :: v)) : Multiset Pt) = {a} + (↑u + ({x} + ↑v)) :=
        calc (↑(a :: (u ++ x :: v)) : Multiset Pt)
            = {a} + ↑(u ++ x :: v) := coe_cons_ms a _
          _ = {a} + (↑u + ↑(x :: v)) := by rw [Multiset.coe_add]
          _ = {a} + (↑u + ({x} + ↑v)) := by rw [coe_cons_ms]
      rw [e1, e2]
      abel

lemma join_two_paths_length (w cand : List Pt) (i1 i2 : ℕ) (h1 : i1 < w.length) :
    (join_two_paths w cand i1 i2).length = w.length + cand.length + 1 := by
  rw [join_two_paths]
  simp only [List.length_append, List.length_take, List.length_drop,
    rotate_closed_path_length]
  omega

lemma join_two_paths_shape (w cand : List Pt) (i1 i2 : ℕ) (h1 : i1 < w.length) :
    join_two_paths w cand i1 i2 ≠ [] ∧
    (join_two_paths w cand i1 i2).headI = w.headI ∧
    (join_two_paths w cand i1 i2).getLastI = w.getLastI := by
  have hw : w ≠ [] := by
    intro h
    rw [h] at h1
    simp at h1
  cases w with
  | nil => exact absurd rfl hw
  | cons w0 wt =>
    have hdrop_ne : (w0 :: wt).drop i1 ≠ [] := by
      have hlen : ((w0 :: wt).drop i1).length = (w0 :: wt).length - i1 := List.length_drop _ _
      intro hnil
      rw [hnil] at hlen
      simp only [List.length_nil] at hlen
      omega
    rw [join_two_paths, List.take_succ_cons]
    refine ⟨by simp, by simp, ?_⟩
    rw [List.cons_append, List.cons_append]
    rw [getLastI_cons_of_ne_nil w0 (by simp [hdrop_ne])]
    rw [getLastI_append_of_ne_nil _ hdrop_ne]
    conv_rhs => rw [← List.take_append_drop i1 (w0 :: wt)]
    rw [getLastI_append_of_ne_nil _ hdrop_ne]

lemma join_two_paths_multiset (w cand : List Pt) (i1 i2 : ℕ) (h1 : i1 < w.length)
    (h2 : i2 < cand.length) (hclosed : cand.headI = cand.getLastI) :
    (↑(join_two_paths w cand i1 i2) : Multiset Pt) + {cand.headI} =
      ↑w + ↑cand + {w.getD i1 ((0 : ℚ), (0 : ℚ))} + {cand.getD i2 ((0 : ℚ), (0 : ℚ))} := by
  have htake : (↑(w.take (i1 + 1)) : Multiset Pt) =
      ↑(w.take i1) + {w.getD i1 ((0 : ℚ), (0 : ℚ))} := by
    rw [List.take_succ]
    have hget : w[i1]? = some (w.get ⟨i1, h1⟩) := by
      simp
    rw [hget, List.getD_eq_getElem w _ h1]
    rw [← Multiset.coe_add]
    rfl
  have hjoin : (↑(w.take i1) : Multiset Pt) + ↑(w.drop i1) = ↑w := by
    rw [Multiset.coe_add]
    exact congrArg _ (List.take_append_drop i1 w)
  have hrotm := rotate_closed_path_multiset cand i2 h2 hclosed
  rw [join_two_paths]
  rw [← Multiset.coe_add, ← Multiset.coe_add, htake]
  calc (↑(w.take i1) + {w.getD i1 ((0 : ℚ), (0 : ℚ))} +
        ↑(rotate_closed_path cand i2) + ↑(w.drop i1) : Multiset Pt) + {cand.headI}
      = (↑(w.take i1) + ↑(w.drop i1)) +
          ((↑(rotate_closed_path cand i2) + {cand.headI}) +
            {w.getD i1 ((0 : ℚ), (0 : ℚ))}) := by abel
    _ = ↑w + ((↑cand + {cand.getD i2 ((0 : ℚ), (0 : ℚ))}) +
          {w.getD i1 ((0 : ℚ), (0 : ℚ))}) := by rw [hjoin, hrotm]
    _ = ↑w + ↑cand + {w.getD i1 ((0 : ℚ), (0 : ℚ))} +
          {cand.getD i2 ((0 : ℚ), (0 : ℚ))} := by abel

/-- Invariant of the joiner loop: starting from a nonempty closed working
path and a pool of nonempty closed paths, after consuming the whole pool the
result keeps the working path's endpoints, its length grows by the total
pool point count plus one junction point per splice, and its multiset of
points is the input points plus one extra copy of each of the `2n` junction
points, minus the consumed closure duplicate (head) of each spliced
candidate. -/
lemma unite_go_spec : ∀ (n : ℕ) (remaining : List (List Pt)) (working : List Pt),
    remaining.length = n → working ≠ [] →
    (∀ p ∈ remaining, p ≠ []) → (∀ p ∈ remaining, p.headI = p.getLastI) →
    (unite_go n working remaining).length =
        working.length + (Multiset.map List.length (↑remaining : Multiset (List Pt))).sum + n ∧
    unite_go n working remaining ≠ [] ∧
    (unite_go n working remaining).headI = working.headI ∧
    (unite_go n working remaining).getLastI = working.getLastI ∧
    ∃ J : Multiset Pt, Multiset.card J = 2 * n ∧
      (↑(unite_go n working remaining) : Multiset Pt) +
          Multiset.map List.headI (↑remaining : Multiset (List Pt)) =
        ↑working +
          (Multiset.map coeMS (↑remaining : Multiset (List Pt))).sum +
          J := by
  intro n
  induction n with
  | zero =>
    intro remaining working hlen hw _ _
    have hrem : remaining = [] := List.length_eq_zero.mp hlen
    subst hrem
    exact ⟨by simp [unite_go], by simpa [unite_go] using hw, rfl, rfl,
      ⟨0, by simp, by simp [unite_go]⟩⟩
  | succ m ih =>
    intro remaining working hlen hw hne hcl
    have hr : remaining ≠ [] := by
      intro h
      rw [h] at hlen
      simp at hlen
    obtain ⟨d, j, i1, i2, hsome, hj, heq, hmin, hstrict⟩ :=
      extract_nearest_path_spec working remaining hr
    set cand := remaining.getD j [] with hcand
    have hcand_mem : cand ∈ remaining := getD_mem_of_lt remaining j [] hj
    have hcand_ne : cand ≠ [] := hne _ hcand_mem
    have hcand_cl : cand.headI = cand.getLastI := hcl _ hcand_mem
    have hd : (compute_paths_distance working cand).1 = d := by
      rw [← heq]
    have hi1e : (compute_paths_distance working cand).2.1 = i1 := by
      rw [← heq]
    have hi2e : (compute_paths_distance working cand).2.2 = i2 := by
      rw [← heq]
    have hpair := compute_paths_distance_spec working cand hw hcand_ne
    rw [hd, hi1e, hi2e] at hpair
    have hi1lt : i1 < working.length := hpair.1
    have hi2lt : i2 < cand.length := hpair.2.1.1
    have hstep : unite_go (m + 1) working remaining =
        unite_go m (join_two_paths working cand i1 i2) (remaining.eraseIdx j) := by
      rw [unite_go, hsome]
    have hlen' : (remaining.eraseIdx j).length = m := by
      rw [List.length_eraseIdx_of_lt hj]
      omega
    have hsub : (remaining.eraseIdx j).Sublist remaining := List.eraseIdx_sublist remaining j
    have hne' : ∀ p ∈ remaining.eraseIdx j, p ≠ [] := fun p hp => hne p (hsub.subset hp)
    have hcl' : ∀ p ∈ remaining.eraseIdx j, p.headI = p.getLastI :=
      fun p hp => hcl p (hsub.subset hp)
    obtain ⟨hjne, hjhead, hjlast⟩ := join_two_paths_shape working cand i1 i2 hi1lt
    obtain ⟨ihlen, ihne, ihhead, ihlast, J', hJ'card, hJ'⟩ :=
      ih (remaining.eraseIdx j) (join_two_paths working cand i1 i2) hlen' hjne hne' hcl'
    have hremM : (↑remaining : Multiset (List Pt)) = ↑(remaining.eraseIdx j) + {cand} :=
      coe_eraseIdx_getD remaining j [] hj
    refine ⟨?_, ?_, ?_, ?_, ?_⟩
    · rw [hstep, ihlen, join_two_paths_length working cand i1 i2 hi1lt, hremM]
      simp only [Multiset.map_add, Multiset.map_singleton, Multiset.sum_add,
        Multiset.sum_singleton]
      omega
    · rw [hstep]
      exact ihne
    · rw [hstep, ihhead, hjhead]
    · rw [hstep, ihlast, hjlast]
    · refine ⟨J' + {working.getD i1 ((0 : ℚ), (0 : ℚ))} +
        {cand.getD i2 ((0 : ℚ), (0 : ℚ))}, ?_, ?_⟩
      · simp only [Multiset.card_add, hJ'card, Multiset.card_singleton]
        omega
      · rw [hstep, hremM]
        simp only [Multiset.map_add, Multiset.map_singleton, Multiset.sum_add,
          Multiset.sum_singleton, coeMS]
        have hjm := join_two_paths_multiset working cand i1 i2 hi1lt hi2lt hcand_cl
        calc (↑(unite_go m (join_two_paths working cand i1 i2) (remaining.eraseIdx j)) :
                Multiset Pt) +
              (Multiset.map List.headI (↑(remaining.eraseIdx j) : Multiset (List Pt)) +
                {cand.headI})
            = (↑(unite_go m (join_two_paths working cand i1 i2) (remaining.eraseIdx j)) +
                Multiset.map List.headI (↑(remaining.eraseIdx j) : Multiset (List Pt))) +
              {cand.headI} := by abel
          _ = (↑(join_two_paths working cand i1 i2) +
                (Multiset.map coeMS
                  (↑(remaining.eraseIdx j) : Multiset (List Pt))).sum + J') +
              {cand.headI} := by rw [hJ']
          _ = (↑(join_two_paths working cand i1 i2) + {cand.headI}) +
              (Multiset.map coeMS
                (↑(remaining.eraseIdx j) : Multiset (List Pt))).sum + J' := by abel
          _ = (↑working + ↑cand + {working.getD i1 ((0 : ℚ), (0 : ℚ))} +
                {cand.getD i2 ((0 : ℚ), (0 : ℚ))}) +
              (Multiset.map coeMS
                (↑(remaining.eraseIdx j) : Multiset (List Pt))).sum + J' := by rw [hjm]
          _ = ↑working +
              ((Multiset.map coeMS
                (↑(remaining.eraseIdx j) : Multiset (List Pt))).sum + ↑cand) +
              (J' + {working.getD i1 ((0 : ℚ), (0 : ℚ))} +
                {cand.getD i2 ((0 : ℚ), (0 : ℚ))}) := by abel

/-- C2, counterexample: for the spec's own two disjoint unit squares the
united path has `11` points, which is the sum of the input lengths (`10`)
plus `K - 1 = 1` junction duplicates, not plus `2 × (K - 1) = 2`. -/
theorem c2_counterexample :
    unite [[((0 : ℚ), (0 : ℚ)), ((1 : ℚ), (0 : ℚ)), ((1 : ℚ), (1 : ℚ)), ((0 : ℚ), (1 : ℚ)),
        ((0 : ℚ), (0 : ℚ))],
      [((3 : ℚ), (0 : ℚ)), ((4 : ℚ), (0 : ℚ)), ((4 : ℚ), (1 : ℚ)), ((3 : ℚ), (1 : ℚ)),
        ((3 : ℚ), (0 : ℚ))]] =
      [((0 : ℚ), (0 : ℚ)), ((1 : ℚ), (0 : ℚ)), ((3 : ℚ), (0 : ℚ)), ((4 : ℚ), (0 : ℚ)),
        ((4 : ℚ), (1 : ℚ)), ((3 : ℚ), (1 : ℚ)), ((3 : ℚ), (0 : ℚ)), ((1 : ℚ), (0 : ℚ)),
        ((1 : ℚ), (1 : ℚ)), ((0 : ℚ), (1 : ℚ)), ((0 : ℚ), (0 : ℚ))] ∧
    (11 : ℕ) ≠ 10 + 2 * (2 - 1) := by
  constructor
  · norm_num [unite, unite_go, extract_nearest_path, extract_go, compute_paths_distance,
      cpd_go, point_path_squared_distance, ppsd_go, join_two_paths, rotate_closed_path,
      squared_distance, squared_length, List.cons_ne_nil]
  · decide

/-- C2, amended: for every nonempty list of nonempty exactly-closed
contours, the united path visits every input point, with `K - 1` extra
junction-point copies in total: its length is the sum of the input lengths
plus `K - 1` (each splice duplicates one working-path junction point and one
candidate junction point while consuming the candidate's closure
duplicate), and its multiset of points is the inputs' multiset plus a
multiset of `2 (K - 1)` junction copies minus the `K - 1` spliced
candidates' closure heads.  The result keeps the first contour's endpoints,
so it is closed. -/
theorem c2_unite_amended (paths : List (List Pt)) (hne : paths ≠ [])
    (h1 : ∀ p ∈ paths, p ≠ []) (h2 : ∀ p ∈ paths, p.headI = p.getLastI) :
    (unite paths).length = (paths.map List.length).sum + (paths.length - 1) ∧
    unite paths ≠ [] ∧
    (unite paths).headI = paths.headI.headI ∧
    (unite paths).getLastI = paths.headI.getLastI ∧
    ∃ J : Multiset Pt, Multiset.card J = 2 * (paths.length - 1) ∧
      (↑(unite paths) : Multiset Pt) +
          Multiset.map List.headI (↑paths.tail : Multiset (List Pt)) =
        (Multiset.map coeMS (↑paths : Multiset (List Pt))).sum + J := by
  cases paths with
  | nil => exact absurd rfl hne
  | cons p0 rest =>
    have hp0 : p0 ≠ [] := h1 p0 (by simp)
    obtain ⟨hlen, hne', hhead, hlast, J, hJcard, hJ⟩ :=
      unite_go_spec rest.length rest p0 rfl hp0
        (fun p hp => h1 p (List.mem_cons_of_mem p0 hp))
        (fun p hp => h2 p (List.mem_cons_of_mem p0 hp))
    have hunite : unite (p0 :: rest) = unite_go rest.length p0 rest := rfl
    refine ⟨?_, ?_, ?_, ?_, ?_⟩
    · rw [hunite, hlen]
      have hsum : (Multiset.map List.length (↑rest : Multiset (List Pt))).sum =
          (rest.map List.length).sum := by
        rw [Multiset.map_coe, Multiset.sum_coe]
      rw [hsum]
      simp only [List.map_cons, List.sum_cons, List.length_cons]
      omega
    · rw [hunite]
      exact hne'
    · rw [hunite, hhead]
      simp
    · rw [hunite, hlast]
      simp
    · refine ⟨J, ?_, ?_⟩
      · rw [hJcard]
        simp only [List.length_cons]
        omega
      · rw [hunite]
        have htail : (p0 :: rest).tail = rest := rfl
        rw [htail]
        have hcoe : (↑(p0 :: rest) : Multiset (List Pt)) = ↑rest + {p0} := by
          rw [coe_cons_ms]
          abel
        rw [hcoe]
        simp only [Multiset.map_add, Multiset.map_singleton, Multiset.sum_add,
          Multiset.sum_singleton, coeMS]
        calc (↑(unite_go rest.length p0 rest) : Multiset Pt) +
              Multiset.map List.headI (↑rest : Multiset (List Pt))
            = ↑p0 + (Multiset.map coeMS
                (↑rest : Multiset (List Pt))).sum + J := hJ
          _ = (Multiset.map coeMS
                (↑rest : Multiset (List Pt))).sum + ↑p0 + J := by abel

/-- C2, witness for the amended theorem on the spec's two unit squares. -/
theorem c2_unite_amended_witness :
    (([[((0 : ℚ), (0 : ℚ)), ((1 : ℚ), (0 : ℚ)), ((1 : ℚ), (1 : ℚ)), ((0 : ℚ), (1 : ℚ)),
        ((0 : ℚ), (0 : ℚ))],
      [((3 : ℚ), (0 : ℚ)), ((4 : ℚ), (0 : ℚ)), ((4 : ℚ), (1 : ℚ)), ((3 : ℚ), (1 : ℚ)),
        ((3 : ℚ), (0 : ℚ))]] : List (List Pt)) ≠ []) ∧
    (unite [[((0 : ℚ), (0 : ℚ)), ((1 : ℚ), (0 : ℚ)), ((1 : ℚ), (1 : ℚ)), ((0 : ℚ), (1 : ℚ)),
        ((0 : ℚ), (0 : ℚ))],
      [((3 : ℚ), (0 : ℚ)), ((4 : ℚ), (0 : ℚ)), ((4 : ℚ), (1 : ℚ)), ((3 : ℚ), (1 : ℚ)),
        ((3 : ℚ), (0 : ℚ))]]).length =
      (([[((0 : ℚ), (0 : ℚ)), ((1 : ℚ), (0 : ℚ)), ((1 : ℚ), (1 : ℚ)), ((0 : ℚ), (1 : ℚ)),
        ((0 : ℚ), (0 : ℚ))],
      [((3 : ℚ), (0 : ℚ)), ((4 : ℚ), (0 : ℚ)), ((4 : ℚ), (1 : ℚ)), ((3 : ℚ), (1 : ℚ)),
        ((3 : ℚ), (0 : ℚ))]] : List (List Pt)).map List.length).sum +
      (([[((0 : ℚ), (0 : ℚ)), ((1 : ℚ), (0 : ℚ)), ((1 : ℚ), (1 : ℚ)), ((0 : ℚ), (1 : ℚ)),
        ((0 : ℚ), (0 : ℚ))],
      [((3 : ℚ), (0 : ℚ)), ((4 : ℚ), (0 : ℚ)), ((4 : ℚ), (1 : ℚ)), ((3 : ℚ), (1 : ℚ)),
        ((3 : ℚ), (0 : ℚ))]] : List (List Pt)).length - 1) :=
  ⟨by decide,
    (c2_unite_amended _ (by decide) (by decide) (by decide)).1⟩

/-! # Claim C3: the tool angle tracker -/

lemma normalize_bounds (a : ℝ) : 0 ≤ normalize a ∧ normalize a < Real.pi := by
  have hπ : (0 : ℝ) < Real.pi := Real.pi_pos
  unfold normalize pyFmod
  by_cases ha : 0 ≤ a
  · rw [if_pos ha]
    have hf : (⌊a / Real.pi⌋ : ℝ) ≤ a / Real.pi := Int.floor_le _
    have hf2 : a / Real.pi < (⌊a / Real.pi⌋ : ℝ) + 1 := Int.lt_floor_add_one _
    have h1 : (⌊a / Real.pi⌋ : ℝ) * Real.pi ≤ a := by
      rwa [← le_div_iff₀ hπ]
    have h2 : a < ((⌊a / Real.pi⌋ : ℝ) + 1) * Real.pi := by
      rwa [← div_lt_iff₀ hπ]
    have h1' : 0 ≤ a - Real.pi * ⌊a / Real.pi⌋ := by
      nlinarith
    have h2' : a - Real.pi * ⌊a / Real.pi⌋ < Real.pi := by
      nlinarith
    rw [if_neg (not_lt.mpr h1')]
    exact ⟨h1', h2'⟩
  · rw [if_neg ha]
    have hc : a / Real.pi ≤ (⌈a / Real.pi⌉ : ℝ) := Int.le_ceil _
    have hc2 : (⌈a / Real.pi⌉ : ℝ) < a / Real.pi + 1 := Int.ceil_lt_add_one _
    have h1 : a ≤ (⌈a / Real.pi⌉ : ℝ) * Real.pi := by
      rwa [← div_le_iff₀ hπ]
    have h2 : (⌈a / Real.pi⌉ : ℝ) * Real.pi < a + Real.pi := by
      have := mul_lt_mul_of_pos_right hc2 hπ
      have hcancel : a / Real.pi * Real.pi = a := div_mul_cancel₀ a (ne_of_gt hπ)
      nlinarith
    have h1' : a - Real.pi * ⌈a / Real.pi⌉ ≤ 0 := by
      nlinarith
    have h2' : -Real.pi < a - Real.pi * ⌈a / Real.pi⌉ := by
      nlinarith
    by_cases hneg : a - Real.pi * ⌈a / Real.pi⌉ < 0
    · rw [if_pos hneg]
      constructor
      · linarith
      · linarith
    · rw [if_neg hneg]
      constructor
      · linarith [not_lt.mp hneg]
      · linarith

lemma normalize_eq_sub_int_mul (a : ℝ) : ∃ k : ℤ, normalize a = a - Real.pi * k := by
  have hpy : ∃ k : ℤ, pyFmod a Real.pi = a - Real.pi * k := by
    unfold pyFmod
    by_cases ha : 0 ≤ a
    · rw [if_pos ha]
      exact ⟨⌊a / Real.pi⌋, rfl⟩
    · rw [if_neg ha]
      exact ⟨⌈a / Real.pi⌉, rfl⟩
  obtain ⟨k, hk⟩ := hpy
  unfold normalize
  by_cases h : pyFmod a Real.pi < 0
  · rw [if_pos h, hk]
    refine ⟨k - 1, ?_⟩
    push_cast
    ring
  · rw [if_neg h, hk]
    exact ⟨k, rfl⟩

lemma compute_tool_angle_bounds (d : ℝ × ℝ) :
    0 ≤ compute_tool_angle_for_direction d ∧
      compute_tool_angle_for_direction d < Real.pi := by
  unfold compute_tool_angle_for_direction
  exact normalize_bounds _

/-- Directions with a nonzero cross product have different base angles:
equal base angles would force the `atan2` angles to differ by a multiple of
`π`, making the directions collinear. -/
lemma ctafd_ne_of_cross_ne_zero (d1 d2 : ℝ × ℝ) (h : cross2 d1 d2 ≠ 0) :
    compute_tool_angle_for_direction d1 ≠ compute_tool_angle_for_direction d2 := by
  intro heq
  have hz1 : (⟨d1.1, d1.2⟩ : ℂ) ≠ 0 := by
    intro h0
    apply h
    have h1 : d1.1 = 0 := by
      have := congrArg Complex.re h0
      simpa using this
    have h2 : d1.2 = 0 := by
      have := congrArg Complex.im h0
      simpa using this
    unfold cross2
    rw [h1, h2]
    ring
  have hz2 : (⟨d2.1, d2.2⟩ : ℂ) ≠ 0 := by
    intro h0
    apply h
    have h1 : d2.1 = 0 := by
      have := congrArg Complex.re h0
      simpa using this
    have h2 : d2.2 = 0 := by
      have := congrArg Complex.im h0
      simpa using this
    unfold cross2
    rw [h1, h2]
    ring
  obtain ⟨k1, hk1⟩ := normalize_eq_sub_int_mul (atan2 d1.2 d1.1 + Real.pi / 2)
  obtain ⟨k2, hk2⟩ := normalize_eq_sub_int_mul (atan2 d2.2 d2.1 + Real.pi / 2)
  unfold compute_tool_angle_for_direction at heq
  rw [hk1, hk2] at heq
  have hdiff : atan2 d2.2 d2.1 - atan2 d1.2 d1.1 = Real.pi * ((k2 : ℝ) - (k1 : ℝ)) := by
    linear_combination -heq
  set a1 := atan2 d1.2 d1.1 with ha1
  set a2 := atan2 d2.2 d2.1 with ha2
  have habs1 : Complex.abs ⟨d1.1, d1.2⟩ ≠ 0 := by
    simpa using hz1
  have habs2 : Complex.abs ⟨d2.1, d2.2⟩ ≠ 0 := by
    simpa using hz2
  have hre1 : d1.1 = Complex.abs ⟨d1.1, d1.2⟩ * Real.cos a1 := by
    have hcos := Complex.cos_arg hz1
    rw [ha1]
    unfold atan2
    rw [hcos]
    field_simp
  have him1 : d1.2 = Complex.abs ⟨d1.1, d1.2⟩ * Real.sin a1 := by
    have hsin := Complex.sin_arg (⟨d1.1, d1.2⟩ : ℂ)
    rw [ha1]
    unfold atan2
    rw [hsin]
    field_simp
  have hre2 : d2.1 = Complex.abs ⟨d2.1, d2.2⟩ * Real.cos a2 := by
    have hcos := Complex.cos_arg hz2
    rw [ha2]
    unfold atan2
    rw [hcos]
    field_simp
  have him2 : d2.2 = Complex.abs ⟨d2.1, d2.2⟩ * Real.sin a2 := by
    have hsin := Complex.sin_arg (⟨d2.1, d2.2⟩ : ℂ)
    rw [ha2]
    unfold atan2
    rw [hsin]
    field_simp
  have hsin0 : Real.sin (a2 - a1) = 0 := by
    have hcast : a2 - a1 = ((k2 - k1 : ℤ) : ℝ) * Real.pi := by
      push_cast
      linear_combination hdiff
    rw [hcast]
    exact Real.sin_int_mul_pi _
  have hss := Real.sin_sub a2 a1
  apply h
  unfold cross2
  linear_combination d2.2 * hre1 - d2.1 * him1 -
    Complex.abs ⟨d1.1, d1.2⟩ * Real.sin a1 * hre2 +
    Complex.abs ⟨d1.1, d1.2⟩ * Real.cos a1 * him2 +
    Complex.abs ⟨d1.1, d1.2⟩ * Complex.abs ⟨d2.1, d2.2⟩ * hsin0 -
    Complex.abs ⟨d1.1, d1.2⟩ * Complex.abs ⟨d2.1, d2.2⟩ * hss

lemma next_angle_some (turn : ℤ) (pa : ℝ) (pd d : ℝ × ℝ) :
    next_angle ⟨turn, some (pa, pd)⟩ d =
      ((compute_next_tool_angle turn pa pd d).1 +
          Real.pi * (compute_next_tool_angle turn pa pd d).2,
        ⟨(compute_next_tool_angle turn pa pd d).2,
          some ((compute_next_tool_angle turn pa pd d).1, d)⟩) := rfl

lemma next_angle_init (d : ℝ × ℝ) :
    next_angle ToolAngleGenerator.init d =
      (compute_tool_angle_for_direction d + Real.pi * ((0 : ℤ) : ℝ),
        ⟨0, some (compute_tool_angle_for_direction d, d)⟩) := rfl

lemma compute_next_tool_angle_pos (turn : ℤ) (pa : ℝ) (pd d : ℝ × ℝ)
    (h : 0 < cross2 pd d) :
    compute_next_tool_angle turn pa pd d =
      (compute_tool_angle_for_direction d,
        if compute_tool_angle_for_direction d < pa then turn + 1 else turn) := by
  unfold compute_next_tool_angle
  rw [if_pos h]

lemma compute_next_tool_angle_neg (turn : ℤ) (pa : ℝ) (pd d : ℝ × ℝ)
    (h : cross2 pd d < 0) :
    compute_next_tool_angle turn pa pd d =
      (compute_tool_angle_for_direction d,
        if pa < compute_tool_angle_for_direction d then turn - 1 else turn) := by
  unfold compute_next_tool_angle
  rw [if_neg (not_lt.mpr h.le), if_pos h]

/-- On counter-clockwise steps (all consecutive cross products positive) the
emitted angles strictly increase, starting from any state whose stored
previous angle is the base angle of the previous direction. -/
lemma next_angles_chain_pos (dirs : List (ℝ × ℝ)) :
    ∀ (pd : ℝ × ℝ) (turn : ℤ),
      List.Chain' (fun d1 d2 => 0 < cross2 d1 d2) (pd :: dirs) →
      List.Chain' (· < ·)
        ((compute_tool_angle_for_direction pd + Real.pi * (turn : ℝ)) ::
          next_angles ⟨turn, some (compute_tool_angle_for_direction pd, pd)⟩ dirs) := by
  induction dirs with
  | nil =>
    intro pd turn _
    simp [next_angles]
  | cons d rest ih =>
    intro pd turn hchain
    rw [List.chain'_cons] at hchain
    obtain ⟨hcross, hrest⟩ := hchain
    rw [next_angles, next_angle_some, compute_next_tool_angle_pos _ _ _ _ hcross]
    dsimp only
    rw [List.chain'_cons]
    have hpd := compute_tool_angle_bounds pd
    have hd := compute_tool_angle_bounds d
    by_cases hlt :
        compute_tool_angle_for_direction d < compute_tool_angle_for_direction pd
    · rw [if_pos hlt]
      constructor
      · push_cast
        have hπ : (0 : ℝ) < Real.pi := Real.pi_pos
        nlinarith [hpd.2, hd.1]
      · exact ih d (turn + 1) hrest
    · rw [if_neg hlt]
      constructor
      · have hne := ctafd_ne_of_cross_ne_zero pd d hcross.ne'
        have hgt : compute_tool_angle_for_direction pd <
            compute_tool_angle_for_direction d :=
          lt_of_le_of_ne (not_lt.mp hlt) hne
        linarith
      · exact ih d turn hrest

/-- On clockwise steps (all consecutive cross products negative) the emitted
angles strictly decrease. -/
lemma next_angles_chain_neg (dirs : List (ℝ × ℝ)) :
    ∀ (pd : ℝ × ℝ) (turn : ℤ),
      List.Chain' (fun d1 d2 => cross2 d1 d2 < 0) (pd :: dirs) →
      List.Chain' (· > ·)
        ((compute_tool_angle_for_direction pd + Real.pi * (turn : ℝ)) ::
          next_angles ⟨turn, some (compute_tool_angle_for_direction pd, pd)⟩ dirs) := by
  induction dirs with
  | nil =>
    intro pd turn _
    simp [next_angles]
  | cons d rest ih =>
    intro pd turn hchain
    rw [List.chain'_cons] at hchain
    obtain ⟨hcross, hrest⟩ := hchain
    rw [next_angles, next_angle_some, compute_next_tool_angle_neg _ _ _ _ hcross]
    dsimp only
    rw [List.chain'_cons]
    have hpd := compute_tool_angle_bounds pd
    have hd := compute_tool_angle_bounds d
    by_cases hlt :
        compute_tool_angle_for_direction pd < compute_tool_angle_for_direction d
    · rw [if_pos hlt]
      constructor
      · push_cast
        have hπ : (0 : ℝ) < Real.pi := Real.pi_pos
        nlinarith [hpd.1, hd.2]
      · exact ih d (turn - 1) hrest
    · rw [if_neg hlt]
      constructor
      · have hne := ctafd_ne_of_cross_ne_zero pd d hcross.ne
        have hgt : compute_tool_angle_for_direction d <
            compute_tool_angle_for_direction pd :=
          lt_of_le_of_ne (not_lt.mp hlt) (Ne.symm hne)
        exact add_lt_add_right hgt _
      · exact ih d turn hrest

/-- C3: for any sequence of directions that rotates monotonically
counter-clockwise (every consecutive pair has positive cross product, as in
unit vectors stepping by 10° from 0° through 370°), the angles returned by
successive `next_angle` calls on a fresh `ToolAngleGenerator` are strictly
increasing; for a monotone clockwise sequence (negative cross products) they
are strictly decreasing. -/
theorem c3_tool_angle_generator (dirs : List (ℝ × ℝ)) :
    (List.Chain' (fun d1 d2 => 0 < cross2 d1 d2) dirs →
      List.Chain' (· < ·) (next_angles ToolAngleGenerator.init dirs)) ∧
    (List.Chain' (fun d1 d2 => cross2 d1 d2 < 0) dirs →
      List.Chain' (· > ·) (next_angles ToolAngleGenerator.init dirs)) := by
  constructor
  · intro h
    cases dirs with
    | nil => simp [next_angles]
    | cons d rest =>
      rw [next_angles, next_angle_init]
      exact next_angles_chain_pos rest d 0 h
  · intro h
    cases dirs with
    | nil => simp [next_angles]
    | cons d rest =>
      rw [next_angles, next_angle_init]
      exact next_angles_chain_neg rest d 0 h

theorem c3_tool_angle_generator_witness :
    (List.Chain' (fun d1 d2 => 0 < cross2 d1 d2)
        [((1 : ℝ), (0 : ℝ)), (0, 1), (-1, 0)] ∧
      List.Chain' (· < ·)
        (next_angles ToolAngleGenerator.init
          [((1 : ℝ), (0 : ℝ)), (0, 1), (-1, 0)])) ∧
    (List.Chain' (fun d1 d2 => cross2 d1 d2 < 0)
        [((1 : ℝ), (0 : ℝ)), (0, -1), (-1, 0)] ∧
      List.Chain' (· > ·)
        (next_angles ToolAngleGenerator.init
          [((1 : ℝ), (0 : ℝ)), (0, -1), (-1, 0)])) := by
  have hpos : List.Chain' (fun d1 d2 => 0 < cross2 d1 d2)
      [((1 : ℝ), (0 : ℝ)), (0, 1), (-1, 0)] := by
    norm_num [List.chain'_cons, List.chain'_singleton, cross2]
  have hneg : List.Chain' (fun d1 d2 => cross2 d1 d2 < 0)
      [((1 : ℝ), (0 : ℝ)), (0, -1), (-1, 0)] := by
    norm_num [List.chain'_cons, List.chain'_singleton, cross2]
  exact ⟨⟨hpos, (c3_tool_angle_generator _).1 hpos⟩,
    ⟨hneg, (c3_tool_angle_generator _).2 hneg⟩⟩

end FoamCutter
